import Mathlib

set_option maxHeartbeats 1000000

namespace DjangoJobs

/-! Shallow embedding of src/extractor.py.  Python strings are modelled as
lists of characters; str.lower and str.strip are modelled on ASCII data. -/

/-- Leading-whitespace removal, the left half of Python str.strip(). -/
def dropLead (s : List Char) : List Char := s.dropWhile Char.isWhitespace

/-- Trailing-whitespace removal, the right half of Python str.strip(). -/
def dropTrail (s : List Char) : List Char := (s.reverse.dropWhile Char.isWhitespace).reverse

/-- Python str.strip(): whitespace removed from both ends. -/
def trim (s : List Char) : List Char := dropTrail (dropLead s)

/-- Python str.lower(), on ASCII letters. -/
def lower (s : List Char) : List Char := s.map Char.toLower

/-- The character class [a-z0-9] of the regex inside norm. -/
def isAlnumLower (c : Char) : Bool := ('a' ≤ c && c ≤ 'z') || ('0' ≤ c && c ≤ '9')

/-- Replace every maximal run of characters satisfying bad with one single
space, the effect of re.sub over a one-character-class-plus pattern.  The
Boolean state records whether the previous character belonged to a run. -/
def squashAux (bad : Char → Bool) : Bool → List Char → List Char
  | _, [] => []
  | inGap, c :: rest =>
    if bad c then
      (if inGap then squashAux bad true rest else ' ' :: squashAux bad true rest)
    else c :: squashAux bad false rest

/-- One re.sub pass replacing maximal bad runs by a single space. -/
def squashWith (bad : Char → Bool) (s : List Char) : List Char := squashAux bad false s

/-- The function norm of src/extractor.py: lowercase and strip, replace runs
of characters outside [a-z0-9] by one space, collapse whitespace runs, strip.
Absent and empty values both give the empty string. -/
def norm (value : Option (List Char)) : List Char :=
  match value with
  | none => []
  | some v =>
    if v.isEmpty then []
    else trim (squashWith Char.isWhitespace
          (squashWith (fun c => !isAlnumLower c) (trim (lower v))))

/-- Python s.split(a, 1)[0]: the part of s before the first occurrence of a. -/
def takeBefore (a : Char) (s : List Char) : List Char := s.takeWhile (fun c => c != a)

/-- The title-normalisation steps of key_for in src/extractor.py: lowercase
and strip the title, split before the first "@" when one occurs, then split
the result before the first comma when one occurs. -/
def rawTitle (title : Option (List Char)) : List Char :=
  let t0 := trim (lower (title.getD []))
  let t1 := if '@' ∈ t0 then trim (takeBefore '@' t0) else t0
  if ',' ∈ t1 then trim (takeBefore ',' t1) else t1

/-- The function key_for of src/extractor.py. -/
def key_for (title company : Option (List Char)) : List Char :=
  norm (some (rawTitle title)) ++ '|' :: norm company

/-- The title-normalisation steps as the spec sentence behind claim C3 words
them: the comma split is applied only when the title has no "@" at all.
This definition follows the spec text and exists to be compared with the
source-derived rawTitle. -/
def rawTitleSpec (title : Option (List Char)) : List Char :=
  let t0 := trim (lower (title.getD []))
  if '@' ∈ t0 then trim (takeBefore '@' t0)
  else if ',' ∈ t0 then trim (takeBefore ',' t0)
  else t0

/-- Key generation as the spec sentence behind claim C3 describes it. -/
def key_forSpec (title company : Option (List Char)) : List Char :=
  norm (some (rawTitleSpec title)) ++ '|' :: norm company

/-- Splitting before a separator only when the separator occurs, without any
re-stripping: the normal form in which rawTitle is analysed below. -/
def splitIfMem (a : Char) (s : List Char) : List Char :=
  if a ∈ s then takeBefore a s else s

/-- No two adjacent spaces: the single-space property of norm output. -/
def noDoubleSpace : List Char → Bool
  | [] => true
  | [_] => true
  | a :: b :: t => ((a != ' ') || (b != ' ')) && noDoubleSpace (b :: t)

/-! Embedding of parse_salary.  The two regular expressions of the source are
hand-compiled to deterministic matchers; for these patterns greedy matching
never needs to backtrack into an earlier sub-pattern, because every character
a greedy piece could hand back is rejected by the piece that follows it. -/

/-- The regex class \d. -/
def isDigitC (c : Char) : Bool := '0' ≤ c && c ≤ '9'

/-- The regex class [\d,]. -/
def isDigComma (c : Char) : Bool := isDigitC c || c = ','

/-- The regex class [kKmM]. -/
def isSuffixKM (c : Char) : Bool := c = 'k' || c = 'K' || c = 'm' || c = 'M'

/-- The regex class [–\-]: en dash or hyphen. -/
def isDash (c : Char) : Bool := c = '–' || c = '-'

/-- The optional magnitude piece (?:[kKmM])?: consume one suffix letter when
present.  Returns the consumed characters and the rest. -/
def takeSuffixKM (s : List Char) : List Char × List Char :=
  match s with
  | c :: r => if isSuffixKM c then ([c], r) else ([], s)
  | [] => ([], s)

/-- The number piece \$\d[\d,]*(?:\.\d+)?(?:[kKmM])? of the bare-dollar
regex, matched at the current position. -/
def matchDollarNum (s : List Char) : Option (List Char × List Char) :=
  match s with
  | c :: d :: rest =>
    if c = '$' then
      if isDigitC d then
        let digs := rest.takeWhile isDigComma
        let r1 := rest.dropWhile isDigComma
        let frac :=
          match r1 with
          | '.' :: r =>
            let f := r.takeWhile isDigitC
            if f.isEmpty then (([] : List Char), r1) else ('.' :: f, r.dropWhile isDigitC)
          | _ => (([] : List Char), r1)
        let suf := takeSuffixKM frac.2
        some (c :: d :: (digs ++ frac.1 ++ suf.1), suf.2)
      else none
    else none
  | _ => none

/-- The optional range piece \s*[–\-]\s* followed by a second number, for the
bare-dollar regex. -/
def matchDollarRange (s : List Char) : Option (List Char × List Char) :=
  let ws1 := s.takeWhile Char.isWhitespace
  match s.dropWhile Char.isWhitespace with
  | c :: r2 =>
    if isDash c then
      let ws2 := r2.takeWhile Char.isWhitespace
      match matchDollarNum (r2.dropWhile Char.isWhitespace) with
      | some (n, rest) => some (ws1 ++ c :: (ws2 ++ n), rest)
      | none => none
    else none
  | [] => none

/-- The whole bare-dollar regex matched at the current position; returns the
text of capture group 1. -/
def matchDollarAt (s : List Char) : Option (List Char) :=
  match matchDollarNum s with
  | none => none
  | some (n, rest) =>
    match matchDollarRange rest with
    | some (rng, _) => some (n ++ rng)
    | none => some n

/-- re.search for the bare-dollar regex: leftmost match wins. -/
def searchDollar : List Char → Option (List Char)
  | [] => none
  | c :: rest =>
    match matchDollarAt (c :: rest) with
    | some m => some m
    | none => searchDollar rest

/-- Case-insensitive literal match: pattern (given lowercase) against the
input, returning the rest of the input on success. -/
def matchCI : List Char → List Char → Option (List Char)
  | [], s => some s
  | _ :: _, [] => none
  | p :: ps, c :: cs => if c.toLower = p then matchCI ps cs else none

/-- The gap class [^\d$] between the keyword and the amount. -/
def isGapChar (c : Char) : Bool := !isDigitC c && c != '$'

/-- The number piece \$?\d[\d,]*(?:[kKmM])? of the keyword-anchored regex:
the dollar sign is optional and there is no fraction piece. -/
def matchKwNum (s : List Char) : Option (List Char × List Char) :=
  match s with
  | [] => none
  | c :: r =>
    if c = '$' then
      match r with
      | d :: r2 =>
        if isDigitC d then
          let digs := r2.takeWhile isDigComma
          let suf := takeSuffixKM (r2.dropWhile isDigComma)
          some (c :: d :: (digs ++ suf.1), suf.2)
        else none
      | [] => none
    else
      if isDigitC c then
        let digs := r.takeWhile isDigComma
        let suf := takeSuffixKM (r.dropWhile isDigComma)
        some (c :: (digs ++ suf.1), suf.2)
      else none

/-- The optional range piece of the keyword-anchored regex. -/
def matchKwRange (s : List Char) : Option (List Char × List Char) :=
  let ws1 := s.takeWhile Char.isWhitespace
  match s.dropWhile Char.isWhitespace with
  | c :: r2 =>
    if isDash c then
      let ws2 := r2.takeWhile Char.isWhitespace
      match matchKwNum (r2.dropWhile Char.isWhitespace) with
      | some (n, rest) => some (ws1 ++ c :: (ws2 ++ n), rest)
      | none => none
    else none
  | [] => none

/-- The keyword-anchored regex
(?i)(?:salary|compensation)[^\d$]\x7b0,20\x7d(group) matched at the current
position; returns the text of capture group 1. -/
def matchKwAt (s : List Char) : Option (List Char) :=
  match (match matchCI "salary".data s with
         | some r => some r
         | none => matchCI "compensation".data s) with
  | none => none
  | some rest =>
    if 20 < (rest.takeWhile isGapChar).length then none
    else
      match matchKwNum (rest.dropWhile isGapChar) with
      | none => none
      | some (n, r3) =>
        match matchKwRange r3 with
        | some (rng, _) => some (n ++ rng)
        | none => some n

/-- re.search for the keyword-anchored regex: leftmost match wins. -/
def searchKw : List Char → Option (List Char)
  | [] => none
  | c :: rest =>
    match matchKwAt (c :: rest) with
    | some m => some m
    | none => searchKw rest

/-- The function parse_salary of src/extractor.py: keyword-anchored match
first, bare dollar amount second, absent otherwise; matches are stripped. -/
def parse_salary (text : List Char) : Option (List Char) :=
  match searchKw text with
  | some v => some (trim v)
  | none =>
    match searchDollar text with
    | some v => some (trim v)
    | none => none

/-- Case-insensitive substring occurrence, used to state when the keyword
anchor can possibly fire. -/
def hasSubstrCI (pat : List Char) : List Char → Bool
  | [] => (matchCI pat []).isSome
  | c :: rest => (matchCI pat (c :: rest)).isSome || hasSubstrCI pat rest

/-! Embedding of the Job record and the merger. -/

/-- The dataclass Job of src/extractor.py.  Optional string fields are
Option values; a present empty string is distinct from an absent value, as
in Python. -/
structure Job where
  id : List Char
  title : List Char
  company : Option (List Char)
  url : List Char
  source : List Char
  location : Option (List Char) := none
  date_posted : Option (List Char) := none
  salary : Option (List Char) := none
  employment_type : Option (List Char) := none
  skills : Option (List (List Char)) := none
  categories : Option (List (List Char)) := none
  summary : Option (List Char) := none
  full_offer_text : Option (List Char) := none
  full_offer_html : Option (List Char) := none
  apply_url : Option (List Char) := none
  company_url : Option (List Char) := none
  image_url : Option (List Char) := none
  dedupe_key : Option (List Char) := none
deriving DecidableEq

/-- Python truthiness of an optional string: absent and empty are falsy. -/
def truthyS : Option (List Char) → Bool
  | none => false
  | some s => !s.isEmpty

/-- Python truthiness of an optional list of strings. -/
def truthyL : Option (List (List Char)) → Bool
  | none => false
  | some l => !l.isEmpty

/-- The function score of src/extractor.py: how many of the ten enrichment
fields are truthy. -/
def score (j : Job) : Nat :=
  List.count true
    [truthyS j.company, truthyS j.location, truthyS j.date_posted,
     truthyS j.salary, truthyS j.employment_type, truthyL j.skills,
     truthyS j.full_offer_text, truthyS j.apply_url, truthyS j.company_url,
     truthyS j.image_url]

/-- len(job.full_offer_text or ""), the tie-break length used by dedupe. -/
def fotLen (j : Job) : Nat := (j.full_offer_text.getD []).length

/-- The key key_for(job.title, job.company) computed inside dedupe. -/
def jobKey (j : Job) : List Char := key_for (some j.title) j.company

/-- The statement job.dedupe_key = key executed inside dedupe. -/
def setKey (j : Job) : Job := { j with dedupe_key := some (jobKey j) }

/-- The replacement condition of dedupe: the new job strictly beats the
stored one on score, or ties on score with strictly longer full_offer_text. -/
def Better (new old : Job) : Prop :=
  score old < score new ∨ (score new = score old ∧ fotLen old < fotLen new)

instance (new old : Job) : Decidable (Better new old) := by
  unfold Better; infer_instance

/-- Lookup in the insertion-ordered dictionary by_key. -/
def lookupKey (k : List Char) : List (List Char × Job) → Option Job
  | [] => none
  | (k', j) :: rest => if k' = k then some j else lookupKey k rest

/-- In-place value update of the insertion-ordered dictionary by_key:
the entry keeps its position. -/
def replaceKey (k : List Char) (j : Job) : List (List Char × Job) → List (List Char × Job)
  | [] => []
  | (k', j') :: rest =>
    if k' = k then (k', j) :: rest else (k', j') :: replaceKey k j rest

/-- One iteration of the loop of dedupe in src/extractor.py. -/
def dedupeStep (acc : List (List Char × Job)) (job : Job) : List (List Char × Job) :=
  let k := jobKey job
  let job' := setKey job
  match lookupKey k acc with
  | none => acc ++ [(k, job')]
  | some existing => if Better job' existing then replaceKey k job' acc else acc

/-- The function dedupe of src/extractor.py; the stats dictionary is the
triple (input_count, output_count, duplicates_removed). -/
def dedupe (jobs : List Job) : List Job × (Nat × Nat × Nat) :=
  let acc := jobs.foldl dedupeStep []
  let out := acc.map Prod.snd
  (out, (jobs.length, out.length, jobs.length - out.length))

/-- The group of input jobs sharing one identity key, in input order. -/
def group (k : List Char) (jobs : List Job) : List Job :=
  jobs.filter (fun j => jobKey j = k)

/-- Reference fold describing the survivor of one key: starting from the
stored representative, each later group member replaces it exactly when it
is Better. -/
def mergeInto (e : Job) : List Job → Job
  | [] => e
  | x :: t => mergeInto (if Better x e then setKey x else e) t

/-- Lexicographic comparison (score, then full_offer_text length) used to
phrase the survivor property. -/
def LexLE (a b : Job) : Prop :=
  score a < score b ∨ (score a = score b ∧ fotLen a ≤ fotLen b)

/-- A sparse concrete posting used to evaluate the merger theorems. -/
def jobA : Job :=
  { id := ['1'], title := ['a'], company := none, url := ['u'], source := ['s'] }

/-- A richer concrete posting with the same identity key as jobA. -/
def jobB : Job :=
  { id := ['2'], title := ['a'], company := none, url := ['v'], source := ['s'],
    location := some ['L'] }

/-! Embedding of the URL utilities. -/

/-- Python s.split(a, 1)[1]: the part of s after the first occurrence of a. -/
def afterFirst (a : Char) (s : List Char) : List Char :=
  (s.dropWhile (fun c => c != a)).tail

/-- The characters allowed in a URL scheme by urllib.parse. -/
def isSchemeChar (c : Char) : Bool := c.isAlpha || c.isDigit || c = '+' || c = '-' || c = '.'

/-- The characters ending the netloc component. -/
def isNetlocEnd (c : Char) : Bool := c = '/' || c = '?' || c = '#'

/-- Model of urllib.parse.urlparse restricted to the two fields that
canonical_site_url reads: the lowercased scheme (empty when the URL has
none) and the netloc (empty when the remainder does not start with //).
A none result models the ValueError raised for an unbalanced bracket in the
netloc. -/
def urlparseSN (url : List Char) : Option (List Char × List Char) :=
  let schemeSplit : List Char × List Char :=
    if ':' ∈ url then
      match takeBefore ':' url with
      | [] => ([], url)
      | c0 :: cs =>
        if c0.isAlpha && (c0 :: cs).all isSchemeChar then
          (lower (c0 :: cs), (url.dropWhile (fun c => c != ':')).tail)
        else ([], url)
    else ([], url)
  match schemeSplit.2 with
  | '/' :: '/' :: r =>
    let netloc := r.takeWhile (fun c => !isNetlocEnd c)
    if (netloc.contains '[') != (netloc.contains ']') then none
    else some (schemeSplit.1, netloc)
  | _ => some (schemeSplit.1, [])

/-- The function canonical_site_url of src/extractor.py: scheme://netloc,
or absent when the input is falsy, parsing raises, or either part is empty. -/
def canonical_site_url (url : Option (List Char)) : Option (List Char) :=
  match url with
  | none => none
  | some u =>
    if u.isEmpty then none
    else
      match urlparseSN u with
      | none => none
      | some (sch, nl) =>
        if sch.isEmpty || nl.isEmpty then none
        else some (sch ++ "://".data ++ nl)

/-- The characters urllib.parse.quote never encodes. -/
def isQuoteAlways (c : Char) : Bool :=
  c.isAlpha || c.isDigit || c = '_' || c = '.' || c = '-' || c = '~'

/-- The characters kept by quote(url, safe=":/") in favicon_url. -/
def quoteSafe (c : Char) : Bool := isQuoteAlways c || c = ':' || c = '/'

/-- UTF-8 encoding of one code point, as quote encodes non-ASCII text. -/
def utf8Bytes (n : Nat) : List Nat :=
  if n < 0x80 then [n]
  else if n < 0x800 then [0xC0 + n / 0x40, 0x80 + n % 0x40]
  else if n < 0x10000 then
    [0xE0 + n / 0x1000, 0x80 + (n / 0x40) % 0x40, 0x80 + n % 0x40]
  else
    [0xF0 + n / 0x40000, 0x80 + (n / 0x1000) % 0x40,
     0x80 + (n / 0x40) % 0x40, 0x80 + n % 0x40]

/-- Uppercase hexadecimal digit, as percent-encoding renders bytes. -/
def hexDigitU (n : Nat) : Char :=
  if n < 10 then Char.ofNat ('0'.toNat + n) else Char.ofNat ('A'.toNat + (n - 10))

/-- One percent-encoded byte. -/
def pctByte (b : Nat) : List Char := ['%', hexDigitU (b / 16), hexDigitU (b % 16)]

/-- urllib.parse.quote(s, safe=":/"). -/
def pyQuote (s : List Char) : List Char :=
  (s.map (fun c =>
    if quoteSafe c then [c] else ((utf8Bytes c.toNat).map pctByte).flatten)).flatten

/-- FAVICON_TMPL of src/extractor.py up to the url placeholder. -/
def faviconPre : List Char :=
  ("https://t0.gstatic.com/faviconV2?client=SOCIAL&type=FAVICON" ++
   "&fallback_opts=TYPE,SIZE,URL&url=").data

/-- FAVICON_TMPL of src/extractor.py after the url placeholder. -/
def faviconPost : List Char := "&size=128".data

/-- The function favicon_url of src/extractor.py. -/
def favicon_url (company_url : Option (List Char)) : Option (List Char) :=
  match company_url with
  | none => none
  | some u =>
    if u.isEmpty then none
    else some (faviconPre ++ pyQuote u ++ faviconPost)

/-! Embedding of parse_employment and skills_from_text. -/

/-- The regex class \w. -/
def isWordChar (c : Char) : Bool := c.isAlpha || c.isDigit || c = '_'

/-- The regex class [-\s] inside the compound employment terms. -/
def isDashWS (c : Char) : Bool := c = '-' || Char.isWhitespace c

/-- Case-insensitive literal match returning the consumed characters in
their original casing together with the rest of the input. -/
def matchCIc : List Char → List Char → Option (List Char × List Char)
  | [], s => some ([], s)
  | _ :: _, [] => none
  | p :: ps, c :: cs =>
    if c.toLower = p then (matchCIc ps cs).map (fun x => (c :: x.1, x.2)) else none

/-- The compound alternative first[-\s]?second: the greedy separator variant
is tried before the separator-free one. -/
def empCompound (first second : List Char) (s : List Char) :
    List (List Char × List Char) :=
  match matchCIc first s with
  | none => []
  | some (c1, r1) =>
    let withSep :=
      match r1 with
      | c :: r2 =>
        if isDashWS c then
          match matchCIc second r2 with
          | some (c2, r3) => [(c1 ++ c :: c2, r3)]
          | none => []
        else []
      | [] => []
    let bare :=
      match matchCIc second r1 with
      | some (c2, r3) => [(c1 ++ c2, r3)]
      | none => []
    withSep ++ bare

/-- The alternative intern(ship)?: greedy long form first. -/
def empIntern (s : List Char) : List (List Char × List Char) :=
  (match matchCIc "internship".data s with
   | some (c1, r1) => [(c1, r1)]
   | none => []) ++
  (match matchCIc "intern".data s with
   | some (c1, r1) => [(c1, r1)]
   | none => [])

/-- All candidate matches of the employment alternation at one position, in
the backtracking order of the regex engine. -/
def empCandidates (s : List Char) : List (List Char × List Char) :=
  empCompound "full".data "time".data s ++
  empCompound "part".data "time".data s ++
  (match matchCIc "contract".data s with
   | some (c1, r1) => [(c1, r1)]
   | none => []) ++
  (match matchCIc "temporary".data s with
   | some (c1, r1) => [(c1, r1)]
   | none => []) ++
  empIntern s

/-- The trailing \b of the employment regex: end of input or a non-word
character next. -/
def trailingBoundary (rest : List Char) : Bool :=
  match rest with
  | [] => true
  | c :: _ => !isWordChar c

/-- The employment regex matched at one position: the first candidate whose
trailing boundary holds, as backtracking selects it. -/
def matchEmpAt (s : List Char) : Option (List Char) :=
  ((empCandidates s).find? (fun cand => trailingBoundary cand.2)).map Prod.fst

/-- re.search for the employment regex.  The Boolean argument records
whether the previous character is a word character, deciding the leading
word boundary; every alternative starts with a letter, so the boundary
holds exactly when the previous character is not a word character. -/
def searchEmp : Bool → List Char → Option (List Char)
  | _, [] => none
  | prevW, c :: rest =>
    match (if prevW then none else matchEmpAt (c :: rest)) with
    | some m => some m
    | none => searchEmp (isWordChar c) rest

/-- The function parse_employment of src/extractor.py. -/
def parse_employment (text : List Char) : Option (List Char) :=
  (searchEmp false text).map trim

/-- The fixed vocabulary of skills_from_text, in source order. -/
def skillsKeys : List (List Char) :=
  ["django", "python", "postgresql", "aws", "kubernetes", "docker", "rest",
   "api", "pytest", "sql", "react"].map String.data

/-- Python str.capitalize() on a lowercase ASCII word. -/
def capitalizeStr (s : List Char) : List Char :=
  match s with
  | [] => []
  | c :: r => c.toUpper :: r.map Char.toLower

/-- The display label of one vocabulary key: the cases dictionary of
skills_from_text, with capitalize as the default. -/
def skillLabel (k : List Char) : List Char :=
  if k = "aws".data then "AWS".data
  else if k = "api".data then "API".data
  else if k = "rest".data then "REST".data
  else if k = "sql".data then "SQL".data
  else capitalizeStr k

/-- The function skills_from_text of src/extractor.py. -/
def skills_from_text (text : List Char) : List (List Char) :=
  (skillsKeys.filter (fun k => hasSubstrCI k text)).map skillLabel

/-! Embedding of the Posting assembly of the two source parsers.  The
network fetch and the page regular expressions are the input boundary: each
assembly function takes the extraction results (the processed capture
groups, absent when an anchor did not match) and builds the Job exactly as
the source does. -/

/-- Python x or y on optional strings: y whenever x is falsy. -/
def pyOr (a b : Option (List Char)) : Option (List Char) :=
  if truthyS a then a else b

/-- The fields of the embedded JSON-LD block read by parse_bwd_jobs.  A
missing key or JSON null is none; the Bool fields record whether the nested
value is a JSON object (the isinstance checks; a missing key defaults to
the empty dict, hence true).  A missing or malformed block is the record
with every field at its default. -/
structure LdBlock where
  url : Option (List Char) := none
  hiringOrgIsDict : Bool := true
  hiringOrgName : Option (List Char) := none
  jobLocationIsDict : Bool := true
  jobLocationAddress : Option (List Char) := none
  datePosted : Option (List Char) := none
  employmentType : Option (List Char) := none
deriving DecidableEq

/-- A concrete structured-data block with every read field populated, used
to evaluate the precedence theorems. -/
def ldW : LdBlock :=
  { url := some "https://example.com/a".data, hiringOrgName := some ['A'],
    jobLocationAddress := some ['B'], datePosted := some ['d'],
    employmentType := some ['f'] }

/-- The Job construction of parse_bwd_jobs (src/extractor.py lines 204-246):
title is the stripped h1 text, fullHtml/fullText the offer body and its
plain text, locM/salM/postedM/applyM the processed capture groups of the
four markup anchors, ld the structured-data block. -/
def assembleBwd (idv url title fullHtml fullText : List Char)
    (locM salM postedM applyM : Option (List Char)) (ld : LdBlock) : Job :=
  let company := if '@' ∈ title then some (trim (afterFirst '@' title)) else none
  let ldOrgName := if ld.hiringOrgIsDict then ld.hiringOrgName else none
  let ldAddr := if ld.jobLocationIsDict then ld.jobLocationAddress else none
  let apply_url := pyOr ld.url applyM
  let company_url := canonical_site_url apply_url
  { id := idv
    title := title
    company := pyOr ldOrgName company
    url := url
    source := "builtwithdjango.com".data
    location := match locM with | some v => some v | none => ldAddr
    date_posted := pyOr ld.datePosted postedM
    salary := match salM with | some v => parse_salary v | none => none
    employment_type := pyOr ld.employmentType (parse_employment fullText)
    skills := some (skills_from_text (title ++ '\n' :: fullText))
    categories := some ["Django Job Board".data]
    summary := if fullText.isEmpty then none else some (fullText.take 500)
    full_offer_text := some fullText
    full_offer_html := some fullHtml
    apply_url := apply_url
    company_url := company_url
    image_url := favicon_url company_url
    dedupe_key := none }

/-- The finished posting of parse_bwd_jobs: the assembled Job with its
dedupe_key set (line 247). -/
def bwdPosting (idv url title fullHtml fullText : List Char)
    (locM salM postedM applyM : Option (List Char)) (ld : LdBlock) : Job :=
  setKey (assembleBwd idv url title fullHtml fullText locM salM postedM applyM ld)

/-- The Job construction of parse_python_jobs (src/extractor.py lines
159-189): title and fullText as extracted, locM the processed location
group, postedM the raw datetime attribute group, pubIso the fallback feed
publication date, cats the processed category tags, webM/applyM the
unescaped link groups, fullHtml the extracted description region. -/
def assemblePython (idv url title fullHtml fullText : List Char)
    (locM postedM pubIso : Option (List Char)) (cats : List (List Char))
    (webM applyM : Option (List Char)) : Job :=
  let company := if ',' ∈ title then some (trim (afterFirst ',' title)) else none
  let apply_url := applyM
  let company_url :=
    canonical_site_url (match webM with | some w => some w | none => apply_url)
  { id := idv
    title := title
    company := company
    url := url
    source := "python.org".data
    location := locM
    date_posted := match postedM with | some p => some (trim p) | none => pubIso
    salary := parse_salary fullText
    employment_type := parse_employment fullText
    skills := some (skills_from_text fullText)
    categories := if cats.isEmpty then none else some cats
    summary := some (fullText.take 500)
    full_offer_text := some fullText
    full_offer_html := if fullHtml.isEmpty then none else some fullHtml
    apply_url := apply_url
    company_url := company_url
    image_url := favicon_url company_url
    dedupe_key := none }

/-- The finished posting of parse_python_jobs: the assembled Job with its
dedupe_key set (line 190). -/
def pyPosting (idv url title fullHtml fullText : List Char)
    (locM postedM pubIso : Option (List Char)) (cats : List (List Char))
    (webM applyM : Option (List Char)) : Job :=
  setKey (assemblePython idv url title fullHtml fullText locM postedM pubIso cats webM applyM)

/-! Embedding of as_rfc2822.  The two stdlib date grammars, the renderer
and the clock are Python-library collaborators of this function, not code
of the repository, so they enter as parameters; a raising parse is none. -/

/-- A Python datetime as as_rfc2822 observes it: some abstract instant data
and an optional UTC offset (none models a naive datetime). -/
structure PyDatetime where
  stamp : Int := 0
  tz : Option Int := none
deriving DecidableEq

/-- parsed.replace(tzinfo=timezone.utc) applied only when parsed is naive:
the guard of src/extractor.py lines 321-322. -/
def forceUTC (d : PyDatetime) : PyDatetime :=
  if d.tz.isSome then d else { d with tz := some 0 }

/-- The function as_rfc2822 of src/extractor.py over the parameterised
collaborators: p1 models parsedate_to_datetime, p2 models
datetime.fromisoformat, fmt models format_datetime, now models
datetime.now(timezone.utc). -/
def as_rfc2822 (p1 p2 : List Char → Option PyDatetime)
    (fmt : PyDatetime → List Char) (now : PyDatetime)
    (value : Option (List Char)) : List Char :=
  match value with
  | none => fmt now
  | some v =>
    if v.isEmpty then fmt now
    else
      let parsed :=
        match p1 v with
        | some d => d
        | none =>
          match p2 v with
          | some d => d
          | none => now
      fmt (forceUTC parsed)

/-! Lemmas about trimming and splitting, leading to a trim-normal form for
the title half of key_for. -/

lemma mem_dropWhile_of_neg {p : Char → Bool} {a : Char} (ha : p a = false)
    {l : List Char} (h : a ∈ l) : a ∈ l.dropWhile p := by
  induction l with
  | nil => cases h
  | cons c t ih =>
    rw [List.dropWhile_cons]
    by_cases hc : p c
    · simp only [hc, if_true]
      rcases List.mem_cons.mp h with rfl | h'
      · rw [ha] at hc; cases hc
      · exact ih h'
    · simp only [hc, if_false]
      exact h

lemma mem_of_mem_dropWhile {p : Char → Bool} {a : Char} {l : List Char}
    (h : a ∈ l.dropWhile p) : a ∈ l := by
  induction l with
  | nil => exact h
  | cons c t ih =>
    rw [List.dropWhile_cons] at h
    by_cases hc : p c
    · simp only [hc, if_true] at h
      exact List.mem_cons_of_mem _ (ih h)
    · simp only [hc, if_false] at h
      exact h

lemma mem_dropTrail_iff {a : Char} (ha : Char.isWhitespace a = false)
    (l : List Char) : a ∈ dropTrail l ↔ a ∈ l := by
  unfold dropTrail
  rw [List.mem_reverse]
  constructor
  · intro h
    exact List.mem_reverse.mp (mem_of_mem_dropWhile h)
  · intro h
    exact mem_dropWhile_of_neg ha (List.mem_reverse.mpr h)

lemma mem_dropLead_iff {a : Char} (ha : Char.isWhitespace a = false)
    (l : List Char) : a ∈ dropLead l ↔ a ∈ l :=
  ⟨mem_of_mem_dropWhile, mem_dropWhile_of_neg ha⟩

lemma mem_trim_iff {a : Char} (ha : Char.isWhitespace a = false)
    (l : List Char) : a ∈ trim l ↔ a ∈ l := by
  unfold trim
  rw [mem_dropTrail_iff ha, mem_dropLead_iff ha]

lemma takeBefore_append_of_mem {a : Char} {l₁ : List Char} (h : a ∈ l₁)
    (l₂ : List Char) : takeBefore a (l₁ ++ l₂) = takeBefore a l₁ := by
  induction l₁ with
  | nil => cases h
  | cons c t ih =>
    by_cases hc : c = a
    · subst hc
      simp [takeBefore, List.takeWhile_cons]
    · rcases List.mem_cons.mp h with rfl | h'
      · exact absurd rfl hc
      · simp only [takeBefore, List.cons_append, List.takeWhile_cons, bne_iff_ne,
          ne_eq, hc, not_false_eq_true, if_true]
        simpa [takeBefore] using ih h'

lemma takeBefore_append_of_not_mem {a : Char} {l₁ : List Char} (h : a ∉ l₁)
    (l₂ : List Char) : takeBefore a (l₁ ++ l₂) = l₁ ++ takeBefore a l₂ := by
  induction l₁ with
  | nil => simp
  | cons c t ih =>
    have hc : c ≠ a := fun hca => h (hca ▸ List.mem_cons_self c t)
    have ht : a ∉ t := fun hat => h (List.mem_cons_of_mem _ hat)
    simp only [takeBefore, List.cons_append, List.takeWhile_cons, bne_iff_ne,
      ne_eq, hc, not_false_eq_true, if_true, List.cons.injEq, true_and]
    simpa [takeBefore] using ih ht

lemma takeBefore_dropLead {a : Char} (ha : Char.isWhitespace a = false)
    (l : List Char) : takeBefore a (dropLead l) = dropLead (takeBefore a l) := by
  induction l with
  | nil => rfl
  | cons c t ih =>
    by_cases hc : Char.isWhitespace c
    · have hca : c ≠ a := fun h => by rw [h, ha] at hc; cases hc
      have h1 : dropLead (c :: t) = dropLead t := by
        simp [dropLead, List.dropWhile_cons, hc]
      have h2 : takeBefore a (c :: t) = c :: takeBefore a t := by
        simp [takeBefore, List.takeWhile_cons, hca]
      have h3 : dropLead (c :: takeBefore a t) = dropLead (takeBefore a t) := by
        simp [dropLead, List.dropWhile_cons, hc]
      rw [h1, h2, h3, ih]
    · have h1 : dropLead (c :: t) = c :: t := by
        simp [dropLead, List.dropWhile_cons, hc]
      rw [h1]
      by_cases hca : c = a
      · subst hca
        have h2 : takeBefore c (c :: t) = [] := by
          simp [takeBefore, List.takeWhile_cons]
        rw [h2]
        rfl
      · have h2 : takeBefore a (c :: t) = c :: takeBefore a t := by
          simp [takeBefore, List.takeWhile_cons, hca]
        have h3 : dropLead (c :: takeBefore a t) = c :: takeBefore a t := by
          simp [dropLead, List.dropWhile_cons, hc]
        rw [h2, h3]

lemma dropTrail_decomp (l : List Char) :
    ∃ t, l = dropTrail l ++ t ∧ ∀ x ∈ t, Char.isWhitespace x := by
  refine ⟨(l.reverse.takeWhile Char.isWhitespace).reverse, ?_, ?_⟩
  · unfold dropTrail
    rw [← List.reverse_append, List.takeWhile_append_dropWhile, List.reverse_reverse]
  · intro x hx
    exact List.mem_takeWhile_imp (List.mem_reverse.mp hx)

lemma takeBefore_dropTrail {a : Char} {l : List Char} (h : a ∈ dropTrail l) :
    takeBefore a l = takeBefore a (dropTrail l) := by
  obtain ⟨t, hdec, -⟩ := dropTrail_decomp l
  conv_lhs => rw [hdec]
  exact takeBefore_append_of_mem h t

lemma dropLead_idem (l : List Char) : dropLead (dropLead l) = dropLead l := by
  induction l with
  | nil => rfl
  | cons c t ih =>
    by_cases hc : Char.isWhitespace c
    · simp only [dropLead, List.dropWhile_cons, hc, if_true] at ih ⊢
      exact ih
    · simp [dropLead, List.dropWhile_cons, hc]

lemma trim_dropLead (l : List Char) : trim (dropLead l) = trim l := by
  unfold trim
  rw [dropLead_idem]

lemma split_step {a : Char} (ha : Char.isWhitespace a = false) (s : List Char) :
    (if a ∈ trim s then trim (takeBefore a (trim s)) else trim s)
      = trim (splitIfMem a s) := by
  unfold splitIfMem
  by_cases h : a ∈ s
  · rw [if_pos ((mem_trim_iff ha s).mpr h), if_pos h]
    have h1 : a ∈ dropLead s := (mem_dropLead_iff ha s).mpr h
    have h2 : a ∈ trim s := (mem_trim_iff ha s).mpr h
    have e1 : takeBefore a (trim s) = takeBefore a (dropLead s) :=
      (takeBefore_dropTrail (show a ∈ dropTrail (dropLead s) from h2)).symm
    rw [e1, takeBefore_dropLead ha, trim_dropLead]
  · rw [if_neg (fun hm => h ((mem_trim_iff ha s).mp hm)), if_neg h]

lemma rawTitle_norm (t : List Char) :
    rawTitle (some t) = trim (splitIfMem ',' (splitIfMem '@' (lower t))) := by
  unfold rawTitle
  simp only [Option.getD_some]
  rw [split_step (by decide) (lower t)]
  exact split_step (by decide) (splitIfMem '@' (lower t))

lemma dropTrail_append_ws {w : Char} (hw : Char.isWhitespace w = true)
    (m : List Char) : dropTrail (m ++ [w]) = dropTrail m := by
  unfold dropTrail
  rw [List.reverse_append, List.reverse_singleton, List.singleton_append,
    List.dropWhile_cons]
  simp [hw]

lemma trim_append_ws {w : Char} (hw : Char.isWhitespace w = true)
    (m : List Char) : trim (m ++ [w]) = trim m := by
  induction m with
  | nil =>
    simp [trim, dropLead, dropTrail, List.dropWhile_cons, hw]
  | cons c t ih =>
    by_cases hc : Char.isWhitespace c
    · simp only [trim, dropLead, List.cons_append, List.dropWhile_cons, hc,
        if_true] at ih ⊢
      exact ih
    · simp only [trim, dropLead, List.cons_append, List.dropWhile_cons, hc,
        if_false]
      have := dropTrail_append_ws hw (c :: t.dropWhile Char.isWhitespace)
      calc dropTrail (c :: (t ++ [w]))
          = dropTrail (c :: t ++ [w]) := by simp
        _ = dropTrail (c :: t) := dropTrail_append_ws hw (c :: t)

lemma titleSplit_comma_vs_at (R C : List Char) :
    trim (splitIfMem ',' (splitIfMem '@' (R ++ [',', ' '] ++ C)))
      = trim (splitIfMem ',' (splitIfMem '@' (R ++ [' ', '@', ' '] ++ C))) := by
  by_cases hat : '@' ∈ R
  · have hA : splitIfMem '@' (R ++ [',', ' '] ++ C) = takeBefore '@' R := by
      unfold splitIfMem
      rw [if_pos (List.mem_append_left _ (List.mem_append_left _ hat)),
        takeBefore_append_of_mem (List.mem_append_left _ hat),
        takeBefore_append_of_mem hat]
    have hB : splitIfMem '@' (R ++ [' ', '@', ' '] ++ C) = takeBefore '@' R := by
      unfold splitIfMem
      rw [if_pos (List.mem_append_left _ (List.mem_append_left _ hat)),
        takeBefore_append_of_mem (List.mem_append_left _ hat),
        takeBefore_append_of_mem hat]
    rw [hA, hB]
  · have hYB : splitIfMem '@' (R ++ [' ', '@', ' '] ++ C) = R ++ [' '] := by
      unfold splitIfMem
      have hm1 : '@' ∈ R ++ [' ', '@', ' '] :=
        List.mem_append_right _ (by decide)
      rw [if_pos (List.mem_append_left _ hm1),
        takeBefore_append_of_mem hm1,
        takeBefore_append_of_not_mem hat]
      rfl
    have hXA : splitIfMem ',' (splitIfMem '@' (R ++ [',', ' '] ++ C))
        = splitIfMem ',' (R ++ [',', ' ']) := by
      have hmid : ',' ∈ R ++ [',', ' '] := List.mem_append_right _ (by decide)
      have hnat : '@' ∉ R ++ [',', ' '] := by
        intro h
        rcases List.mem_append.mp h with h' | h'
        · exact hat h'
        · simp at h'
      by_cases hac : '@' ∈ C
      · have hYA : splitIfMem '@' (R ++ [',', ' '] ++ C)
            = (R ++ [',', ' ']) ++ takeBefore '@' C := by
          unfold splitIfMem
          rw [if_pos (List.mem_append_right _ hac),
            takeBefore_append_of_not_mem hnat]
        rw [hYA]
        unfold splitIfMem
        rw [if_pos (List.mem_append_left _ hmid), if_pos hmid,
          takeBefore_append_of_mem hmid]
      · have hYA : splitIfMem '@' (R ++ [',', ' '] ++ C) = R ++ [',', ' '] ++ C := by
          unfold splitIfMem
          rw [if_neg]
          intro h
          rcases List.mem_append.mp h with h' | h'
          · exact hnat h'
          · exact hac h'
        rw [hYA]
        unfold splitIfMem
        rw [if_pos (List.mem_append_left _ hmid), if_pos hmid,
          takeBefore_append_of_mem hmid]
    rw [hXA, hYB]
    by_cases hco : ',' ∈ R
    · have e1 : splitIfMem ',' (R ++ [',', ' ']) = takeBefore ',' R := by
        unfold splitIfMem
        rw [if_pos (List.mem_append_left _ hco), takeBefore_append_of_mem hco]
      have e2 : splitIfMem ',' (R ++ [' ']) = takeBefore ',' R := by
        unfold splitIfMem
        rw [if_pos (List.mem_append_left _ hco), takeBefore_append_of_mem hco]
      rw [e1, e2]
    · have e1 : splitIfMem ',' (R ++ [',', ' ']) = R := by
        unfold splitIfMem
        rw [if_pos (List.mem_append_right _ (by decide)),
          takeBefore_append_of_not_mem hco]
        simp [takeBefore]
      have e2 : splitIfMem ',' (R ++ [' ']) = R ++ [' '] := by
        unfold splitIfMem
        rw [if_neg]
        intro h
        rcases List.mem_append.mp h with h' | h'
        · exact hco h'
        · simp at h'
      rw [e1, e2, trim_append_ws (by decide)]

/-- Claim C2: computeKey gives the same key for a title formatted as
"Role, Company" as for "Role @ Company" with the company argument held
constant: key_for(r + ", " + c, c) = key_for(r + " @ " + c, c) for all
strings r and c. -/
theorem key_for_format_invariant (r c : List Char) :
    key_for (some (r ++ ", ".data ++ c)) (some c)
      = key_for (some (r ++ " @ ".data ++ c)) (some c) := by
  unfold key_for
  congr 1
  rw [rawTitle_norm, rawTitle_norm]
  have h1 : lower (r ++ ", ".data ++ c) = lower r ++ [',', ' '] ++ lower c := by
    unfold lower
    rw [List.map_append, List.map_append]
    rfl
  have h2 : lower (r ++ " @ ".data ++ c) = lower r ++ [' ', '@', ' '] ++ lower c := by
    unfold lower
    rw [List.map_append, List.map_append]
    rfl
  rw [h1, h2]
  exact congrArg (fun x => norm (some x)) (titleSplit_comma_vs_at (lower r) (lower c))

/-- Claim C3 counterexample: for the title "a,b@c" the code first splits
before the "@" and then additionally splits the remainder "a,b" at its
comma, giving key fragment "a"; the claimed processing, in which a title
containing an "@" is never split at a comma, keeps "a,b" and would give
fragment "a b". -/
theorem key_for_comma_after_at_counterexample :
    key_for (some "a,b@c".data) none = "a|".data ∧
    key_forSpec (some "a,b@c".data) none = "a b|".data ∧
    key_for (some "a,b@c".data) none ≠ key_forSpec (some "a,b@c".data) none :=
  ⟨by decide, by decide, by decide⟩

/-- Claim C3 as amended: computeKey lowercases and trims the title, keeps
the portion before the first "@" when one is present, and then — also when
an "@" split already happened — keeps the portion before the first comma of
the result when one is present: the two splits are sequential, not
mutually exclusive. -/
theorem key_for_split_order (title company : Option (List Char)) :
    key_for title company
      = norm (some (trim (splitIfMem ',' (splitIfMem '@' (lower (title.getD []))))))
          ++ '|' :: norm company := by
  unfold key_for
  have h : rawTitle title
      = trim (splitIfMem ',' (splitIfMem '@' (lower (title.getD [])))) := by
    cases title with
    | none => exact rawTitle_norm []
    | some t => exact rawTitle_norm t
  rw [h]

/-! Lemmas for the shape of norm output: character set and single spaces. -/

lemma squashAux_cons (bad : Char → Bool) (b : Bool) (x : Char) (rest : List Char) :
    squashAux bad b (x :: rest) =
      if bad x then
        (if b then squashAux bad true rest else ' ' :: squashAux bad true rest)
      else x :: squashAux bad false rest := rfl

lemma squashAux_mem {bad : Char → Bool} {c : Char} :
    ∀ (s : List Char) (b : Bool), c ∈ squashAux bad b s →
      c = ' ' ∨ (bad c = false ∧ c ∈ s) := by
  intro s
  induction s with
  | nil => intro b h; cases h
  | cons x rest ih =>
    intro b h
    by_cases hx : bad x
    · rw [show squashAux bad b (x :: rest)
          = (if b then squashAux bad true rest else ' ' :: squashAux bad true rest) from by
        simp [squashAux, hx]] at h
      cases b with
      | true =>
        rw [if_pos rfl] at h
        rcases ih true h with h1 | ⟨h1, h2⟩
        · exact Or.inl h1
        · exact Or.inr ⟨h1, List.mem_cons_of_mem _ h2⟩
      | false =>
        rw [if_neg Bool.false_ne_true] at h
        rcases List.mem_cons.mp h with rfl | h'
        · exact Or.inl rfl
        · rcases ih true h' with h1 | ⟨h1, h2⟩
          · exact Or.inl h1
          · exact Or.inr ⟨h1, List.mem_cons_of_mem _ h2⟩
    · rw [show squashAux bad b (x :: rest) = x :: squashAux bad false rest from by
        simp [squashAux, hx]] at h
      rcases List.mem_cons.mp h with rfl | h'
      · exact Or.inr ⟨by simpa using hx, List.mem_cons_self _ _⟩
      · rcases ih false h' with h1 | ⟨h1, h2⟩
        · exact Or.inl h1
        · exact Or.inr ⟨h1, List.mem_cons_of_mem _ h2⟩

lemma squashAux_true_head {bad : Char → Bool} :
    ∀ (s : List Char), squashAux bad true s = [] ∨
      ∃ c t', squashAux bad true s = c :: t' ∧ bad c = false := by
  intro s
  induction s with
  | nil => exact Or.inl rfl
  | cons x rest ih =>
    by_cases hx : bad x
    · rw [show squashAux bad true (x :: rest) = squashAux bad true rest from by
        simp [squashAux, hx]]
      exact ih
    · exact Or.inr ⟨x, squashAux bad false rest,
        by rw [squashAux_cons]; simp [hx], by simpa using hx⟩

lemma noDS_cons_of {c : Char} {Y : List Char} (hY : noDoubleSpace Y = true)
    (h : c ≠ ' ' ∨ ∀ d t, Y = d :: t → d ≠ ' ') : noDoubleSpace (c :: Y) = true := by
  cases Y with
  | nil => rfl
  | cons d t =>
    have hd : ((c != ' ') || (d != ' ')) = true := by
      rcases h with h | h
      · simp [h]
      · simp [h d t rfl]
    simp only [noDoubleSpace, hd, hY, Bool.and_self]

lemma squashAux_noDS {bad : Char → Bool} (hsp : bad ' ' = true) :
    ∀ (s : List Char) (b : Bool), noDoubleSpace (squashAux bad b s) = true := by
  intro s
  induction s with
  | nil => intro b; rfl
  | cons x rest ih =>
    intro b
    by_cases hx : bad x
    · cases b with
      | true =>
        rw [show squashAux bad true (x :: rest) = squashAux bad true rest from by
          simp [squashAux, hx]]
        exact ih true
      | false =>
        rw [show squashAux bad false (x :: rest) = ' ' :: squashAux bad true rest from by
          simp [squashAux, hx]]
        apply noDS_cons_of (ih true)
        right
        intro d t hdt hds
        rcases @squashAux_true_head bad rest with h0 | ⟨c', t', heq, hc'⟩
        · rw [h0] at hdt; cases hdt
        · rw [heq] at hdt
          have : c' = d := (List.cons.injEq _ _ _ _ ▸ hdt).1
          rw [this, hds] at hc'
          rw [hsp] at hc'
          cases hc'
    · rw [show squashAux bad b (x :: rest) = x :: squashAux bad false rest from by
        simp [squashAux, hx]]
      apply noDS_cons_of (ih false)
      left
      intro hxs
      rw [hxs, hsp] at hx
      exact hx rfl

lemma noDS_tail {c : Char} {l : List Char}
    (h : noDoubleSpace (c :: l) = true) : noDoubleSpace l = true := by
  cases l with
  | nil => rfl
  | cons d t =>
    simp only [noDoubleSpace, Bool.and_eq_true] at h
    exact h.2

lemma noDS_dropWhile {p : Char → Bool} {l : List Char}
    (h : noDoubleSpace l = true) : noDoubleSpace (l.dropWhile p) = true := by
  induction l with
  | nil => exact h
  | cons c t ih =>
    rw [List.dropWhile_cons]
    by_cases hc : p c
    · simp only [hc, if_true]
      exact ih (noDS_tail h)
    · simp only [hc, if_false]
      exact h

lemma noDS_append_left :
    ∀ (l₁ l₂ : List Char), noDoubleSpace (l₁ ++ l₂) = true → noDoubleSpace l₁ = true := by
  intro l₁
  induction l₁ with
  | nil => intro l₂ _; rfl
  | cons a t ih =>
    intro l₂ h
    cases t with
    | nil => rfl
    | cons b t' =>
      simp only [List.cons_append, noDoubleSpace, Bool.and_eq_true] at h ⊢
      exact ⟨h.1, by simpa using ih l₂ (by simpa using h.2)⟩

lemma noDS_trim {l : List Char} (h : noDoubleSpace l = true) :
    noDoubleSpace (trim l) = true := by
  unfold trim dropTrail
  obtain ⟨t, hdec, -⟩ := dropTrail_decomp (dropLead l)
  have h1 : noDoubleSpace (dropLead l) = true := noDS_dropWhile h
  rw [hdec] at h1
  exact noDS_append_left _ _ h1

lemma mem_of_mem_dropTrail {a : Char} {l : List Char} (h : a ∈ dropTrail l) : a ∈ l := by
  unfold dropTrail at h
  rw [List.mem_reverse] at h
  exact List.mem_reverse.mp (mem_of_mem_dropWhile h)

lemma mem_of_mem_trim {a : Char} {l : List Char} (h : a ∈ trim l) : a ∈ l :=
  mem_of_mem_dropWhile (mem_of_mem_dropTrail h)

lemma norm_chars (v : Option (List Char)) :
    ∀ c ∈ norm v, c = ' ' ∨ isAlnumLower c = true := by
  intro c hc
  cases v with
  | none => cases hc
  | some s =>
    rw [show norm (some s) = (if s.isEmpty then [] else
        trim (squashWith Char.isWhitespace
          (squashWith (fun c => !isAlnumLower c) (trim (lower s))))) from rfl] at hc
    by_cases hs : s.isEmpty
    · rw [if_pos hs] at hc; cases hc
    · rw [if_neg hs] at hc
      have h1 := mem_of_mem_trim hc
      rcases squashAux_mem _ _ h1 with h | ⟨-, h2⟩
      · exact Or.inl h
      · rcases squashAux_mem _ _ h2 with h | ⟨hal, -⟩
        · exact Or.inl h
        · exact Or.inr (by simpa using hal)

lemma norm_noDS (v : Option (List Char)) : noDoubleSpace (norm v) = true := by
  cases v with
  | none => rfl
  | some s =>
    rw [show norm (some s) = (if s.isEmpty then [] else
        trim (squashWith Char.isWhitespace
          (squashWith (fun c => !isAlnumLower c) (trim (lower s))))) from rfl]
    by_cases hs : s.isEmpty
    · rw [if_pos hs]; rfl
    · rw [if_neg hs]
      exact noDS_trim (squashAux_noDS (by decide) _ _)

lemma norm_no_pipe (v : Option (List Char)) : '|' ∉ norm v := by
  intro h
  rcases norm_chars v '|' h with h1 | h1
  · cases h1
  · cases h1

/-- Claim C10: computeKey is total on absent inputs — key_for(None, None)
is the single character "|" — and every key splits as fragment, literal
"|", fragment, where each fragment holds only lowercase alphanumerics and
single spaces, never a "|", so the key holds exactly one "|". -/
theorem key_for_total_and_shape :
    key_for none none = ['|'] ∧
    ∀ t c, ∃ f1 f2,
      key_for t c = f1 ++ '|' :: f2 ∧
      (∀ ch ∈ f1, ch = ' ' ∨ isAlnumLower ch = true) ∧
      (∀ ch ∈ f2, ch = ' ' ∨ isAlnumLower ch = true) ∧
      noDoubleSpace f1 = true ∧ noDoubleSpace f2 = true ∧
      '|' ∉ f1 ∧ '|' ∉ f2 ∧
      (key_for t c).count '|' = 1 := by
  refine ⟨by decide, ?_⟩
  intro t c
  refine ⟨norm (some (rawTitle t)), norm c, rfl, norm_chars _, norm_chars _,
    norm_noDS _, norm_noDS _, norm_no_pipe _, norm_no_pipe _, ?_⟩
  unfold key_for
  rw [List.count_append, List.count_cons]
  have h1 : (norm (some (rawTitle t))).count '|' = 0 :=
    List.count_eq_zero.mpr (norm_no_pipe _)
  have h2 : (norm c).count '|' = 0 :=
    List.count_eq_zero.mpr (norm_no_pipe _)
  simp [h1, h2]

/-! Lemmas about the merger: the insertion-ordered dictionary, the per-key
survivor fold, and the lexicographic survivor property. -/

lemma lookupKey_append (k k₀ : List Char) (j : Job) (acc : List (List Char × Job)) :
    lookupKey k (acc ++ [(k₀, j)]) =
      match lookupKey k acc with
      | some e => some e
      | none => if k₀ = k then some j else none := by
  induction acc with
  | nil => simp [lookupKey]
  | cons p rest ih =>
    obtain ⟨k', j'⟩ := p
    by_cases h : k' = k
    · simp [lookupKey, h]
    · simpa [lookupKey, h] using ih

lemma lookupKey_replace_self {k : List Char} {acc : List (List Char × Job)} {e : Job}
    (h : lookupKey k acc = some e) (j : Job) :
    lookupKey k (replaceKey k j acc) = some j := by
  induction acc with
  | nil => cases h
  | cons p rest ih =>
    obtain ⟨k', j'⟩ := p
    by_cases hk : k' = k
    · simp [lookupKey, replaceKey, hk]
    · rw [lookupKey] at h
      rw [if_neg hk] at h
      simpa [lookupKey, replaceKey, hk] using ih h

lemma lookupKey_replace_other {k k' : List Char} (hne : k' ≠ k) (j : Job)
    (acc : List (List Char × Job)) :
    lookupKey k (replaceKey k' j acc) = lookupKey k acc := by
  induction acc with
  | nil => rfl
  | cons p rest ih =>
    obtain ⟨k₀, j₀⟩ := p
    rw [replaceKey]
    by_cases h0 : k₀ = k'
    · rw [if_pos h0]
      have hk : k₀ ≠ k := fun h => hne (h0.symm.trans h)
      rw [lookupKey, lookupKey, if_neg hk, if_neg hk]
    · rw [if_neg h0, lookupKey, lookupKey]
      by_cases h1 : k₀ = k
      · rw [if_pos h1, if_pos h1]
      · rw [if_neg h1, if_neg h1, ih]

lemma dedupeStep_none {acc : List (List Char × Job)} {j : Job}
    (h : lookupKey (jobKey j) acc = none) :
    dedupeStep acc j = acc ++ [(jobKey j, setKey j)] := by
  show (match lookupKey (jobKey j) acc with
    | none => acc ++ [(jobKey j, setKey j)]
    | some existing =>
        if Better (setKey j) existing then replaceKey (jobKey j) (setKey j) acc
        else acc) = acc ++ [(jobKey j, setKey j)]
  rw [h]

lemma dedupeStep_some_pos {acc : List (List Char × Job)} {j e : Job}
    (h : lookupKey (jobKey j) acc = some e) (hb : Better j e) :
    dedupeStep acc j = replaceKey (jobKey j) (setKey j) acc := by
  show (match lookupKey (jobKey j) acc with
    | none => acc ++ [(jobKey j, setKey j)]
    | some existing =>
        if Better (setKey j) existing then replaceKey (jobKey j) (setKey j) acc
        else acc) = replaceKey (jobKey j) (setKey j) acc
  rw [h]
  exact if_pos (show Better (setKey j) e from hb)

lemma dedupeStep_some_neg {acc : List (List Char × Job)} {j e : Job}
    (h : lookupKey (jobKey j) acc = some e) (hb : ¬ Better j e) :
    dedupeStep acc j = acc := by
  show (match lookupKey (jobKey j) acc with
    | none => acc ++ [(jobKey j, setKey j)]
    | some existing =>
        if Better (setKey j) existing then replaceKey (jobKey j) (setKey j) acc
        else acc) = acc
  rw [h]
  exact if_neg (show ¬ Better (setKey j) e from hb)

lemma lookupKey_dedupeStep_other {j : Job} {k : List Char} (hkj : jobKey j ≠ k)
    (acc : List (List Char × Job)) :
    lookupKey k (dedupeStep acc j) = lookupKey k acc := by
  cases hacc : lookupKey (jobKey j) acc with
  | none =>
    rw [dedupeStep_none hacc, lookupKey_append]
    cases h : lookupKey k acc
    · simp [hkj]
    · rfl
  | some e =>
    by_cases hb : Better j e
    · rw [dedupeStep_some_pos hacc hb, lookupKey_replace_other hkj]
    · rw [dedupeStep_some_neg hacc hb]

lemma group_cons_self {j : Job} {k : List Char} (h : jobKey j = k) (rest : List Job) :
    group k (j :: rest) = j :: group k rest := by
  simp [group, List.filter_cons, h]

lemma group_cons_other {j : Job} {k : List Char} (h : jobKey j ≠ k) (rest : List Job) :
    group k (j :: rest) = group k rest := by
  simp [group, List.filter_cons, h]

lemma dedupe_lookup_some :
    ∀ (jobs : List Job) (acc : List (List Char × Job)) (k : List Char) (e : Job),
      lookupKey k acc = some e →
      lookupKey k (jobs.foldl dedupeStep acc) = some (mergeInto e (group k jobs)) := by
  intro jobs
  induction jobs with
  | nil =>
    intro acc k e h
    simpa [group, mergeInto] using h
  | cons j rest ih =>
    intro acc k e h
    rw [List.foldl_cons]
    by_cases hkj : jobKey j = k
    · subst hkj
      have h1 : lookupKey (jobKey j) (dedupeStep acc j)
          = some (if Better j e then setKey j else e) := by
        by_cases hb : Better j e
        · rw [dedupeStep_some_pos h hb, if_pos hb]
          exact lookupKey_replace_self h (setKey j)
        · rw [dedupeStep_some_neg h hb, if_neg hb]
          exact h
      rw [ih (dedupeStep acc j) (jobKey j) _ h1, group_cons_self rfl]
      rfl
    · have h1 : lookupKey k (dedupeStep acc j) = lookupKey k acc :=
        lookupKey_dedupeStep_other hkj acc
      rw [ih (dedupeStep acc j) k e (h1.trans h), group_cons_other hkj]

lemma dedupe_lookup_none :
    ∀ (jobs : List Job) (acc : List (List Char × Job)) (k : List Char),
      lookupKey k acc = none →
      lookupKey k (jobs.foldl dedupeStep acc) =
        (match group k jobs with
         | [] => none
         | h :: t => some (mergeInto (setKey h) t)) := by
  intro jobs
  induction jobs with
  | nil =>
    intro acc k h
    simpa [group] using h
  | cons j rest ih =>
    intro acc k h
    rw [List.foldl_cons]
    by_cases hkj : jobKey j = k
    · subst hkj
      have h1 : lookupKey (jobKey j) (dedupeStep acc j) = some (setKey j) := by
        rw [dedupeStep_none h, lookupKey_append, h, if_pos rfl]
      rw [dedupe_lookup_some rest (dedupeStep acc j) (jobKey j) (setKey j) h1,
        group_cons_self rfl]
    · have h1 : lookupKey k (dedupeStep acc j) = lookupKey k acc :=
        lookupKey_dedupeStep_other hkj acc
      rw [ih (dedupeStep acc j) k (h1.trans h), group_cons_other hkj]

lemma dedupe_lookup (jobs : List Job) (k : List Char) :
    lookupKey k (jobs.foldl dedupeStep []) =
      (match group k jobs with
       | [] => none
       | h :: t => some (mergeInto (setKey h) t)) :=
  dedupe_lookup_none jobs [] k rfl

lemma mem_map_snd_of_lookup {k : List Char} {acc : List (List Char × Job)} {j : Job}
    (h : lookupKey k acc = some j) : j ∈ acc.map Prod.snd := by
  induction acc with
  | nil => cases h
  | cons p rest ih =>
    obtain ⟨k', j'⟩ := p
    rw [lookupKey] at h
    by_cases hk : k' = k
    · rw [if_pos hk] at h
      injection h with h
      subst h
      exact List.mem_cons_self _ _
    · rw [if_neg hk] at h
      exact List.mem_cons_of_mem _ (ih h)

lemma not_better_iff (x e : Job) : ¬ Better x e ↔ LexLE x e := by
  unfold Better LexLE
  omega

lemma lexLE_refl (a : Job) : LexLE a a := Or.inr ⟨rfl, Nat.le_refl _⟩

lemma lexLE_of_better {x e : Job} (h : Better x e) : LexLE e x := by
  unfold Better at h
  unfold LexLE
  omega

lemma better_trans {a b c : Job} (h1 : Better a b) (h2 : Better b c) : Better a c := by
  unfold Better at h1 h2 ⊢
  omega

lemma better_of_better_lexLE {a b c : Job} (h1 : Better a b) (h2 : LexLE c b) :
    Better a c := by
  unfold Better at h1 ⊢
  unfold LexLE at h2
  omega

lemma ite_better_setKey {α : Sort _} (x e : Job) (a b : α) :
    (if Better x (setKey e) then a else b) = (if Better x e then a else b) := by
  by_cases h : Better x e
  · rw [if_pos h, if_pos (show Better x (setKey e) from h)]
  · rw [if_neg h, if_neg (show ¬ Better x (setKey e) from h)]

/-- The survivor fold keeps the stored copy of the first element attaining
the lexicographic maximum.  The invariant carries the elements already
processed, split at the current survivor's origin x₀: everything before x₀
is strictly below it, everything after compares at most equal. -/
lemma mergeInto_first_max :
    ∀ (g : List Job) (x₀ : Job) (pre mid : List Job),
      (∀ x ∈ pre, Better x₀ x) →
      (∀ x ∈ mid, LexLE x x₀) →
      ∃ y₀ pre' post',
        pre ++ x₀ :: mid ++ g = pre' ++ y₀ :: post' ∧
        mergeInto (setKey x₀) g = setKey y₀ ∧
        (∀ x ∈ pre ++ x₀ :: mid ++ g, LexLE x y₀) ∧
        (∀ x ∈ pre', Better y₀ x) := by
  intro g
  induction g with
  | nil =>
    intro x₀ pre mid hpre hmid
    refine ⟨x₀, pre, mid, by simp, rfl, ?_, hpre⟩
    intro x hx
    rw [List.append_nil] at hx
    rcases List.mem_append.mp hx with hx | hx
    · exact lexLE_of_better (hpre x hx)
    · rcases List.mem_cons.mp hx with rfl | hx'
      · exact lexLE_refl x
      · exact hmid x hx'
  | cons y rest ih =>
    intro x₀ pre mid hpre hmid
    rw [show mergeInto (setKey x₀) (y :: rest)
        = mergeInto (if Better y (setKey x₀) then setKey y else setKey x₀) rest from rfl,
      ite_better_setKey]
    by_cases hb : Better y x₀
    · rw [if_pos hb]
      have hpre' : ∀ x ∈ pre ++ x₀ :: mid, Better y x := by
        intro x hx
        rcases List.mem_append.mp hx with hx | hx
        · exact better_trans hb (hpre x hx)
        · rcases List.mem_cons.mp hx with rfl | hx'
          · exact hb
          · exact better_of_better_lexLE hb (hmid x hx')
      obtain ⟨y₀, pre', post', heq, hmerge, hall, hstrict⟩ :=
        ih y (pre ++ x₀ :: mid) [] hpre' (by intro x hx; cases hx)
      have hlist : pre ++ x₀ :: mid ++ y :: rest
          = (pre ++ x₀ :: mid) ++ y :: [] ++ rest := by
        simp
      refine ⟨y₀, pre', post', ?_, hmerge, ?_, hstrict⟩
      · rw [hlist]
        exact heq
      · intro x hx
        rw [hlist] at hx
        exact hall x hx
    · rw [if_neg hb]
      have hmid' : ∀ x ∈ mid ++ [y], LexLE x x₀ := by
        intro x hx
        rcases List.mem_append.mp hx with hx | hx
        · exact hmid x hx
        · rcases List.mem_singleton.mp hx with rfl
          exact (not_better_iff x x₀).mp hb
      obtain ⟨y₀, pre', post', heq, hmerge, hall, hstrict⟩ :=
        ih x₀ pre (mid ++ [y]) hpre hmid'
      have hlist : pre ++ x₀ :: mid ++ y :: rest
          = pre ++ x₀ :: (mid ++ [y]) ++ rest := by
        simp
      refine ⟨y₀, pre', post', ?_, hmerge, ?_, hstrict⟩
      · rw [hlist]
        exact heq
      · intro x hx
        rw [hlist] at hx
        exact hall x hx

lemma score_setKey (j : Job) : score (setKey j) = score j := rfl

lemma fotLen_setKey (j : Job) : fotLen (setKey j) = fotLen j := rfl

lemma jobKey_setKey (j : Job) : jobKey (setKey j) = jobKey j := rfl

lemma setKey_setKey (j : Job) : setKey (setKey j) = setKey j := rfl

/-- Claim C1: within every identity-key group the merger's survivor is the
stored copy of the first-seen group member attaining the lexicographic
(score, full_offer_text length) maximum: the group splits as
pre ++ x₀ :: post where every member compares at most equal to x₀ and
every member of pre compares strictly below x₀ — so the highest score
wins, score ties go to the longer full_offer_text, and ties of both go to
the first-seen record; in particular, of two same-key postings with
strictly different scores the richer one is the sole survivor in either
input order. -/
theorem dedupe_survivor_richest :
    (∀ (jobs : List Job) (k : List Char) (h : Job) (t : List Job),
      group k jobs = h :: t →
      ∃ x₀ pre post, h :: t = pre ++ x₀ :: post ∧
        lookupKey k (jobs.foldl dedupeStep []) = some (setKey x₀) ∧
        setKey x₀ ∈ (dedupe jobs).1 ∧
        (∀ x ∈ h :: t, LexLE x x₀) ∧
        (∀ x ∈ pre, Better x₀ x)) ∧
    (∀ j1 j2 : Job, jobKey j1 = jobKey j2 → score j2 < score j1 →
      (dedupe [j1, j2]).1 = [setKey j1] ∧ (dedupe [j2, j1]).1 = [setKey j1]) := by
  constructor
  · intro jobs k h t hg
    obtain ⟨y₀, pre', post', heq, hmerge, hall, hstrict⟩ :=
      mergeInto_first_max t h [] [] (by intro x hx; cases hx) (by intro x hx; cases hx)
    have heq' : h :: t = pre' ++ y₀ :: post' := by simpa using heq
    have hl : lookupKey k (jobs.foldl dedupeStep []) = some (setKey y₀) := by
      rw [dedupe_lookup jobs k, hg]
      show some (mergeInto (setKey h) t) = some (setKey y₀)
      rw [hmerge]
    refine ⟨y₀, pre', post', heq', hl, mem_map_snd_of_lookup hl, ?_, hstrict⟩
    intro x hx
    exact hall x hx
  · intro j1 j2 hk hs
    constructor
    · have hl0 : lookupKey (jobKey j1) ([] : List (List Char × Job)) = none := rfl
      have s1 : dedupeStep [] j1 = [(jobKey j1, setKey j1)] :=
        (dedupeStep_none hl0).trans (List.nil_append _)
      have hl : lookupKey (jobKey j2) [(jobKey j1, setKey j1)] = some (setKey j1) := by
        rw [lookupKey, if_pos hk]
      have hnb : ¬ Better j2 (setKey j1) := by
        unfold Better
        rw [score_setKey, fotLen_setKey]
        omega
      have s2 : dedupeStep [(jobKey j1, setKey j1)] j2 = [(jobKey j1, setKey j1)] :=
        dedupeStep_some_neg hl hnb
      show ([j1, j2].foldl dedupeStep []).map Prod.snd = [setKey j1]
      rw [List.foldl_cons, List.foldl_cons, List.foldl_nil, s1, s2]
      rfl
    · have hl0 : lookupKey (jobKey j2) ([] : List (List Char × Job)) = none := rfl
      have s1 : dedupeStep [] j2 = [(jobKey j2, setKey j2)] :=
        (dedupeStep_none hl0).trans (List.nil_append _)
      have hl : lookupKey (jobKey j1) [(jobKey j2, setKey j2)] = some (setKey j2) := by
        rw [lookupKey, if_pos hk.symm]
      have hb : Better j1 (setKey j2) := by
        unfold Better
        rw [score_setKey]
        exact Or.inl hs
      have s2 : dedupeStep [(jobKey j2, setKey j2)] j1
          = replaceKey (jobKey j1) (setKey j1) [(jobKey j2, setKey j2)] :=
        dedupeStep_some_pos hl hb
      have s3 : replaceKey (jobKey j1) (setKey j1) [(jobKey j2, setKey j2)]
          = [(jobKey j2, setKey j1)] := by
        rw [replaceKey, if_pos hk.symm]
      show ([j2, j1].foldl dedupeStep []).map Prod.snd = [setKey j1]
      rw [List.foldl_cons, List.foldl_cons, List.foldl_nil, s1, s2, s3]
      rfl

/-- Witness for claim C1 at the concrete postings jobA (score 0) and jobB
(score 1, same key): the first-maximum survivor decomposition for the list
[jobA, jobB], and the sole-survivor facts in both input orders. -/
theorem dedupe_survivor_richest_witness :
    (∃ x₀ pre post, jobA :: [jobB] = pre ++ x₀ :: post ∧
        lookupKey (jobKey jobA) ([jobA, jobB].foldl dedupeStep []) = some (setKey x₀) ∧
        setKey x₀ ∈ (dedupe [jobA, jobB]).1 ∧
        (∀ x ∈ jobA :: [jobB], LexLE x x₀) ∧
        (∀ x ∈ pre, Better x₀ x)) ∧
    ((dedupe [jobB, jobA]).1 = [setKey jobB] ∧ (dedupe [jobA, jobB]).1 = [setKey jobB]) :=
  ⟨dedupe_survivor_richest.1 [jobA, jobB] (jobKey jobA) jobA [jobB] (by decide),
   dedupe_survivor_richest.2 jobB jobA (by decide) (by decide)⟩

/-! Lemmas for idempotence of the merger. -/

lemma lookupKey_eq_none_iff (k : List Char) (acc : List (List Char × Job)) :
    lookupKey k acc = none ↔ k ∉ acc.map Prod.fst := by
  induction acc with
  | nil => simp [lookupKey]
  | cons p rest ih =>
    obtain ⟨k', j'⟩ := p
    rw [lookupKey]
    by_cases h : k' = k
    · subst h
      rw [if_pos rfl]
      constructor
      · intro hc
        cases hc
      · intro hc
        rw [List.map_cons] at hc
        exact absurd (List.mem_cons_self _ _) hc
    · simp only [h, if_false, ih, List.map_cons, List.mem_cons]
      constructor
      · intro h1 h2
        rcases h2 with h2 | h2
        · exact h (h2.symm)
        · exact h1 h2
      · intro h1 h2
        exact h1 (Or.inr h2)

lemma replaceKey_map_fst (k : List Char) (j : Job) (acc : List (List Char × Job)) :
    (replaceKey k j acc).map Prod.fst = acc.map Prod.fst := by
  induction acc with
  | nil => rfl
  | cons p rest ih =>
    obtain ⟨k', j'⟩ := p
    rw [replaceKey]
    by_cases h : k' = k
    · rw [if_pos h]
      simp
    · rw [if_neg h, List.map_cons, List.map_cons, ih]

lemma mem_replaceKey {p : List Char × Job} {k : List Char} {j : Job}
    {acc : List (List Char × Job)} (h : p ∈ replaceKey k j acc) :
    p ∈ acc ∨ p.2 = j := by
  induction acc with
  | nil => cases h
  | cons q rest ih =>
    obtain ⟨k', j'⟩ := q
    rw [replaceKey] at h
    by_cases hk : k' = k
    · rw [if_pos hk] at h
      rcases List.mem_cons.mp h with rfl | h'
      · exact Or.inr rfl
      · exact Or.inl (List.mem_cons_of_mem _ h')
    · rw [if_neg hk] at h
      rcases List.mem_cons.mp h with rfl | h'
      · exact Or.inl (List.mem_cons_self _ _)
      · rcases ih h' with h1 | h1
        · exact Or.inl (List.mem_cons_of_mem _ h1)
        · exact Or.inr h1

lemma mem_replaceKey_fst {p : List Char × Job} {k : List Char} {j : Job}
    {acc : List (List Char × Job)} (h : p ∈ replaceKey k j acc) :
    p ∈ acc ∨ p = (k, j) := by
  induction acc with
  | nil => cases h
  | cons q rest ih =>
    obtain ⟨k', j'⟩ := q
    rw [replaceKey] at h
    by_cases hk : k' = k
    · rw [if_pos hk] at h
      rcases List.mem_cons.mp h with rfl | h'
      · exact Or.inr (by rw [hk])
      · exact Or.inl (List.mem_cons_of_mem _ h')
    · rw [if_neg hk] at h
      rcases List.mem_cons.mp h with rfl | h'
      · exact Or.inl (List.mem_cons_self _ _)
      · rcases ih h' with h1 | h1
        · exact Or.inl (List.mem_cons_of_mem _ h1)
        · exact Or.inr h1

lemma dedupe_acc_inv :
    ∀ (jobs : List Job) (acc : List (List Char × Job)),
      (∀ p ∈ acc, p.1 = jobKey p.2 ∧ setKey p.2 = p.2) →
      (acc.map Prod.fst).Nodup →
      (∀ p ∈ jobs.foldl dedupeStep acc, p.1 = jobKey p.2 ∧ setKey p.2 = p.2) ∧
      ((jobs.foldl dedupeStep acc).map Prod.fst).Nodup := by
  intro jobs
  induction jobs with
  | nil =>
    intro acc h1 h2
    exact ⟨h1, h2⟩
  | cons j rest ih =>
    intro acc h1 h2
    rw [List.foldl_cons]
    apply ih
    · cases hacc : lookupKey (jobKey j) acc with
      | none =>
        rw [dedupeStep_none hacc]
        intro p hp
        rcases List.mem_append.mp hp with hp | hp
        · exact h1 p hp
        · have hpe : p = (jobKey j, setKey j) := List.mem_singleton.mp hp
          subst hpe
          exact ⟨(jobKey_setKey j).symm, setKey_setKey j⟩
      | some e =>
        by_cases hb : Better j e
        · rw [dedupeStep_some_pos hacc hb]
          intro p hp
          rcases mem_replaceKey_fst hp with hp | rfl
          · exact h1 p hp
          · exact ⟨(jobKey_setKey j).symm, setKey_setKey j⟩
        · rw [dedupeStep_some_neg hacc hb]
          exact h1
    · cases hacc : lookupKey (jobKey j) acc with
      | none =>
        rw [dedupeStep_none hacc, List.map_append]
        refine List.Nodup.append h2 (List.nodup_singleton _) ?_
        intro a ha hb
        have ha2 : a = jobKey j := by simpa using hb
        subst ha2
        exact (lookupKey_eq_none_iff _ _).mp hacc ha
      | some e =>
        by_cases hb : Better j e
        · rw [dedupeStep_some_pos hacc hb, replaceKey_map_fst]
          exact h2
        · rw [dedupeStep_some_neg hacc hb]
          exact h2

lemma foldl_fresh :
    ∀ (out : List Job) (acc : List (List Char × Job)),
      (∀ j ∈ out, setKey j = j) →
      (∀ j ∈ out, lookupKey (jobKey j) acc = none) →
      (out.map jobKey).Nodup →
      out.foldl dedupeStep acc = acc ++ out.map (fun j => (jobKey j, j)) := by
  intro out
  induction out with
  | nil =>
    intro acc _ _ _
    simp
  | cons j rest ih =>
    intro acc hfix hfresh hnodup
    rw [List.map_cons] at hnodup
    have hnd := List.nodup_cons.mp hnodup
    have hstep : dedupeStep acc j = acc ++ [(jobKey j, j)] := by
      rw [dedupeStep_none (hfresh j (List.mem_cons_self _ _)),
        hfix j (List.mem_cons_self _ _)]
    rw [List.foldl_cons, hstep]
    have hfix' : ∀ x ∈ rest, setKey x = x :=
      fun x hx => hfix x (List.mem_cons_of_mem _ hx)
    have hfresh' : ∀ x ∈ rest, lookupKey (jobKey x) (acc ++ [(jobKey j, j)]) = none := by
      intro x hx
      rw [lookupKey_append, hfresh x (List.mem_cons_of_mem _ hx)]
      have hne : jobKey j ≠ jobKey x := by
        intro he
        exact hnd.1 (he ▸ List.mem_map_of_mem jobKey hx)
      rw [if_neg hne]
    rw [ih (acc ++ [(jobKey j, j)]) hfix' hfresh' hnd.2]
    simp

/-- Claim C4: merge is idempotent — deduplicating the survivor list of a
previous dedupe returns the same list, same records in the same order. -/
theorem dedupe_idempotent (jobs : List Job) :
    (dedupe ((dedupe jobs).1)).1 = (dedupe jobs).1 := by
  have hinv := dedupe_acc_inv jobs [] (by intro p hp; cases hp) (by simp)
  have hpairs := hinv.1
  have hnodup := hinv.2
  have hmapkey : ((jobs.foldl dedupeStep []).map Prod.snd).map jobKey
      = (jobs.foldl dedupeStep []).map Prod.fst := by
    rw [List.map_map]
    apply List.map_congr_left
    intro p hp
    exact ((hpairs p hp).1).symm
  have hfix : ∀ j ∈ (jobs.foldl dedupeStep []).map Prod.snd, setKey j = j := by
    intro j hj
    rcases List.mem_map.mp hj with ⟨p, hp, rfl⟩
    exact (hpairs p hp).2
  have hfresh : ∀ j ∈ (jobs.foldl dedupeStep []).map Prod.snd,
      lookupKey (jobKey j) ([] : List (List Char × Job)) = none := fun _ _ => rfl
  have hkeys : (((jobs.foldl dedupeStep []).map Prod.snd).map jobKey).Nodup := by
    rw [hmapkey]
    exact hnodup
  have h2 := foldl_fresh ((jobs.foldl dedupeStep []).map Prod.snd) [] hfix hfresh hkeys
  show (((jobs.foldl dedupeStep []).map Prod.snd).foldl dedupeStep []).map Prod.snd
      = (jobs.foldl dedupeStep []).map Prod.snd
  rw [h2, List.nil_append, List.map_map]
  simp

/-! Lemmas about parse_salary: absence without anchors, and the head shape
of the keyword-anchored capture. -/

lemma matchDollarNum_ne {c : Char} (rest : List Char) (hc : c ≠ '$') :
    matchDollarNum (c :: rest) = none := by
  cases rest with
  | nil => rfl
  | cons d r =>
    unfold matchDollarNum
    dsimp only
    rw [if_neg hc]

lemma searchDollar_none {s : List Char} (h : '$' ∉ s) : searchDollar s = none := by
  induction s with
  | nil => rfl
  | cons c rest ih =>
    have hc : c ≠ '$' := fun he => h (he ▸ List.mem_cons_self _ _)
    have hrest : '$' ∉ rest := fun hm => h (List.mem_cons_of_mem _ hm)
    have hat : matchDollarAt (c :: rest) = none := by
      unfold matchDollarAt
      rw [matchDollarNum_ne rest hc]
    rw [show searchDollar (c :: rest)
        = (match matchDollarAt (c :: rest) with
           | some m => some m
           | none => searchDollar rest) from rfl, hat]
    exact ih hrest

lemma matchKwAt_none {s : List Char} (h1 : matchCI "salary".data s = none)
    (h2 : matchCI "compensation".data s = none) : matchKwAt s = none := by
  unfold matchKwAt
  rw [h1, h2]

lemma searchKw_none {s : List Char}
    (h1 : hasSubstrCI "salary".data s = false)
    (h2 : hasSubstrCI "compensation".data s = false) : searchKw s = none := by
  induction s with
  | nil => rfl
  | cons c rest ih =>
    rw [show hasSubstrCI "salary".data (c :: rest)
        = ((matchCI "salary".data (c :: rest)).isSome || hasSubstrCI "salary".data rest)
        from rfl] at h1
    rw [show hasSubstrCI "compensation".data (c :: rest)
        = ((matchCI "compensation".data (c :: rest)).isSome
            || hasSubstrCI "compensation".data rest) from rfl] at h2
    rcases Bool.or_eq_false_iff.mp h1 with ⟨h1a, h1b⟩
    rcases Bool.or_eq_false_iff.mp h2 with ⟨h2a, h2b⟩
    have hat : matchKwAt (c :: rest) = none :=
      matchKwAt_none (Option.not_isSome_iff_eq_none.mp (by simp [h1a]))
        (Option.not_isSome_iff_eq_none.mp (by simp [h2a]))
    rw [show searchKw (c :: rest)
        = (match matchKwAt (c :: rest) with
           | some m => some m
           | none => searchKw rest) from rfl, hat]
    exact ih h1b h2b

/-- Claim C5: extractSalary is absent whenever the text holds no dollar
sign and no occurrence of the anchor keywords, and on the two reference
inputs it is absent for "Raised 3.1M and growing month-on-month" and
returns "$120,000 - $150,000" for "Salary: $120,000 - $150,000". -/
theorem parse_salary_absent_and_examples :
    (∀ text : List Char, '$' ∉ text →
      hasSubstrCI "salary".data text = false →
      hasSubstrCI "compensation".data text = false →
      parse_salary text = none) ∧
    parse_salary "Raised 3.1M and growing month-on-month".data = none ∧
    parse_salary "Salary: $120,000 - $150,000".data
      = some "$120,000 - $150,000".data := by
  refine ⟨?_, by decide, by decide⟩
  intro text hd h1 h2
  unfold parse_salary
  rw [searchKw_none h1 h2, searchDollar_none hd]

/-- Witness for claim C5 on the concrete text "no money here". -/
theorem parse_salary_absent_witness : parse_salary "no money here".data = none :=
  parse_salary_absent_and_examples.1 "no money here".data (by decide) (by decide)
    (by decide)

/-- Claim C6 counterexample: the keyword-anchored branch fires on
"salary: 50,000" and captures "50,000", which does not begin with "$" —
the dollar sign of the keyword-anchored pattern is optional. -/
theorem keyword_salary_no_dollar_counterexample :
    searchKw "salary: 50,000".data = some "50,000".data ∧
    parse_salary "salary: 50,000".data = some "50,000".data ∧
    ("50,000".data).head? ≠ some '$' :=
  ⟨by decide, by decide, by decide⟩

lemma matchKwNum_head {s n r : List Char} (h : matchKwNum s = some (n, r)) :
    ∃ c cs, n = c :: cs ∧ (c = '$' ∨ isDigitC c = true) := by
  cases s with
  | nil => cases h
  | cons c rest =>
    unfold matchKwNum at h
    dsimp only at h
    by_cases hc : c = '$'
    · rw [if_pos hc] at h
      cases rest with
      | nil => cases h
      | cons d r2 =>
        dsimp only at h
        by_cases hd : isDigitC d
        · rw [if_pos hd] at h
          injection h with h
          exact ⟨c, _, congrArg Prod.fst h.symm, Or.inl hc⟩
        · rw [if_neg hd] at h
          cases h
    · rw [if_neg hc] at h
      by_cases hdc : isDigitC c
      · rw [if_pos hdc] at h
        injection h with h
        exact ⟨c, _, congrArg Prod.fst h.symm, Or.inr hdc⟩
      · rw [if_neg hdc] at h
        cases h

lemma matchKwAt_head {s m : List Char} (h : matchKwAt s = some m) :
    ∃ c cs, m = c :: cs ∧ (c = '$' ∨ isDigitC c = true) := by
  unfold matchKwAt at h
  cases hkw : (match matchCI "salary".data s with
               | some r => some r
               | none => matchCI "compensation".data s) with
  | none =>
    rw [hkw] at h
    cases h
  | some rest =>
    rw [hkw] at h
    dsimp only at h
    by_cases hgap : 20 < (rest.takeWhile isGapChar).length
    · rw [if_pos hgap] at h
      cases h
    · rw [if_neg hgap] at h
      cases hnum : matchKwNum (rest.dropWhile isGapChar) with
      | none =>
        rw [hnum] at h
        cases h
      | some p =>
        obtain ⟨n, r3⟩ := p
        rw [hnum] at h
        dsimp only at h
        obtain ⟨c, cs, hn, hcd⟩ := matchKwNum_head hnum
        cases hrng : matchKwRange r3 with
        | none =>
          rw [hrng] at h
          injection h with h
          exact ⟨c, cs, by rw [← h, hn], hcd⟩
        | some q =>
          rw [hrng] at h
          injection h with h
          exact ⟨c, cs ++ q.1, by rw [← h, hn, List.cons_append], hcd⟩

/-- Claim C6 as amended: every keyword-anchored capture begins with a "$"
or a digit; the dollar prefix of the keyword-anchored amount is optional,
so a bare digit-led amount is a legitimate keyword-anchored result. -/
theorem keyword_salary_head (text v : List Char) (h : searchKw text = some v) :
    ∃ c cs, v = c :: cs ∧ (c = '$' ∨ isDigitC c = true) := by
  induction text with
  | nil => cases h
  | cons c rest ih =>
    rw [show searchKw (c :: rest)
        = (match matchKwAt (c :: rest) with
           | some m => some m
           | none => searchKw rest) from rfl] at h
    cases hat : matchKwAt (c :: rest) with
    | some m =>
      rw [hat] at h
      injection h with h
      subst h
      exact matchKwAt_head hat
    | none =>
      rw [hat] at h
      exact ih h

/-- Witness for the amended claim C6 on the concrete text "salary $5". -/
theorem keyword_salary_head_witness :
    ∃ c cs, "$5".data = c :: cs ∧ (c = '$' ∨ isDigitC c = true) :=
  keyword_salary_head "salary $5".data "$5".data (by decide)

/-! Lemmas and theorems for the source-parser assembly claims. -/

lemma pyOr_pos {a b : Option (List Char)} (h : truthyS a = true) : pyOr a b = a := by
  unfold pyOr
  rw [if_pos h]

/-- Claim C7 counterexample: when both the markup "Location:" anchor and
the structured-data jobLocation.address yield a value, the assembled
posting carries the markup value, not the structured-data one — for the
location field the markup anchor takes precedence. -/
theorem bwd_location_precedence_counterexample :
    (assembleBwd [] [] [] [] [] (some "Paris".data) none none none
        { jobLocationAddress := some "Berlin".data }).location = some "Paris".data ∧
    (some "Paris".data : Option (List Char)) ≠ some "Berlin".data :=
  ⟨rfl, by decide⟩

/-- Claim C7 as amended: the structured-data block's url,
hiringOrganization.name, datePosted and employmentType values take
precedence over the markup-anchor values whenever they are truthy, but for
location the markup "Location:" anchor takes precedence and the
structured-data jobLocation.address is only the fallback used when the
anchor did not match. -/
theorem bwd_structured_data_precedence
    (idv url title fullHtml fullText : List Char)
    (locM salM postedM applyM : Option (List Char)) (ld : LdBlock) :
    (truthyS ld.url = true →
      (assembleBwd idv url title fullHtml fullText locM salM postedM applyM ld).apply_url
        = ld.url) ∧
    (ld.hiringOrgIsDict = true → truthyS ld.hiringOrgName = true →
      (assembleBwd idv url title fullHtml fullText locM salM postedM applyM ld).company
        = ld.hiringOrgName) ∧
    (truthyS ld.datePosted = true →
      (assembleBwd idv url title fullHtml fullText locM salM postedM applyM ld).date_posted
        = ld.datePosted) ∧
    (truthyS ld.employmentType = true →
      (assembleBwd idv url title fullHtml fullText locM salM postedM applyM ld).employment_type
        = ld.employmentType) ∧
    (∀ v, locM = some v →
      (assembleBwd idv url title fullHtml fullText locM salM postedM applyM ld).location
        = some v) ∧
    (locM = none → ld.jobLocationIsDict = true →
      (assembleBwd idv url title fullHtml fullText locM salM postedM applyM ld).location
        = ld.jobLocationAddress) := by
  refine ⟨?_, ?_, ?_, ?_, ?_, ?_⟩
  · intro h
    show pyOr ld.url applyM = ld.url
    exact pyOr_pos h
  · intro hdict htr
    show pyOr (if ld.hiringOrgIsDict then ld.hiringOrgName else none)
        (if '@' ∈ title then some (trim (afterFirst '@' title)) else none)
      = ld.hiringOrgName
    rw [if_pos hdict]
    exact pyOr_pos htr
  · intro h
    show pyOr ld.datePosted postedM = ld.datePosted
    exact pyOr_pos h
  · intro h
    show pyOr ld.employmentType (parse_employment fullText) = ld.employmentType
    exact pyOr_pos h
  · intro v hv
    subst hv
    rfl
  · intro hnone hdict
    subst hnone
    show (if ld.jobLocationIsDict then ld.jobLocationAddress else none)
        = ld.jobLocationAddress
    rw [if_pos hdict]

/-- Witness for the amended claim C7 at concrete inputs: the four
structured-data fields win when the block supplies them, the markup
location wins when its anchor matched, and the structured-data address is
used when it did not. -/
theorem bwd_structured_data_precedence_witness :
    ((assembleBwd [] [] [] [] [] (some "Paris".data) none none none ldW).apply_url
        = ldW.url) ∧
    ((assembleBwd [] [] [] [] [] (some "Paris".data) none none none ldW).company
        = ldW.hiringOrgName) ∧
    ((assembleBwd [] [] [] [] [] (some "Paris".data) none none none ldW).date_posted
        = ldW.datePosted) ∧
    ((assembleBwd [] [] [] [] [] (some "Paris".data) none none none ldW).employment_type
        = ldW.employmentType) ∧
    ((assembleBwd [] [] [] [] [] (some "Paris".data) none none none ldW).location
        = some "Paris".data) ∧
    ((assembleBwd [] [] [] [] [] none none none none ldW).location
        = ldW.jobLocationAddress) :=
  ⟨(bwd_structured_data_precedence [] [] [] [] [] (some "Paris".data) none none none
      ldW).1 (by decide),
   (bwd_structured_data_precedence [] [] [] [] [] (some "Paris".data) none none none
      ldW).2.1 rfl (by decide),
   (bwd_structured_data_precedence [] [] [] [] [] (some "Paris".data) none none none
      ldW).2.2.1 (by decide),
   (bwd_structured_data_precedence [] [] [] [] [] (some "Paris".data) none none none
      ldW).2.2.2.1 (by decide),
   (bwd_structured_data_precedence [] [] [] [] [] (some "Paris".data) none none none
      ldW).2.2.2.2.1 "Paris".data rfl,
   (bwd_structured_data_precedence [] [] [] [] [] none none none none
      ldW).2.2.2.2.2 rfl rfl⟩

lemma canonical_some_not_empty {x : Option (List Char)} {u : List Char}
    (h : canonical_site_url x = some u) : u.isEmpty = false := by
  unfold canonical_site_url at h
  cases x with
  | none => cases h
  | some v =>
    dsimp only at h
    by_cases hv : v.isEmpty
    · rw [if_pos hv] at h
      cases h
    · rw [if_neg hv] at h
      cases hp : urlparseSN v with
      | none =>
        rw [hp] at h
        cases h
      | some p =>
        obtain ⟨sch, nl⟩ := p
        rw [hp] at h
        dsimp only at h
        by_cases he : sch.isEmpty || nl.isEmpty
        · rw [if_pos he] at h
          cases h
        · rw [if_neg he] at h
          injection h with h
          have hs : sch.isEmpty = false := by
            rcases Bool.or_eq_false_iff.mp (Bool.eq_false_iff.mpr he) with ⟨h1, _⟩
            exact h1
          rw [← h]
          cases sch with
          | nil => cases hs
          | cons a t => rfl

lemma forceUTC_isSome (d : PyDatetime) : (forceUTC d).tz.isSome = true := by
  unfold forceUTC
  by_cases h : d.tz.isSome
  · rw [if_pos h]
    exact h
  · rw [if_neg h]
    rfl

lemma favicon_of_canonical {x : Option (List Char)} {u : List Char}
    (h : canonical_site_url x = some u) :
    favicon_url (some u) = some (faviconPre ++ pyQuote u ++ faviconPost) := by
  have hne := canonical_some_not_empty h
  unfold favicon_url
  dsimp only
  rw [hne, if_neg Bool.false_ne_true]

lemma favicon_canonical_props (x : Option (List Char)) :
    ((favicon_url (canonical_site_url x)).isSome ↔ (canonical_site_url x).isSome) ∧
    (∀ u, canonical_site_url x = some u →
      favicon_url (canonical_site_url x)
        = some (faviconPre ++ pyQuote u ++ faviconPost)) := by
  constructor
  · cases hc : canonical_site_url x with
    | none => simp [favicon_url]
    | some u =>
      rw [favicon_of_canonical hc]
      simp
  · intro u hu
    rw [hu]
    exact favicon_of_canonical hu

/-- Claim C8: in the Posting assembly of both source parsers, image_url is
exactly favicon_url of company_url: present if and only if company_url is
present, and when present equal to the fixed favicon template applied to
the percent-encoded company_url — never independently supplied. -/
theorem image_url_is_favicon_of_company_url :
    (∀ (idv url title fullHtml fullText : List Char)
        (locM salM postedM applyM : Option (List Char)) (ld : LdBlock),
      ((assembleBwd idv url title fullHtml fullText locM salM postedM applyM ld).image_url
        = favicon_url
            (assembleBwd idv url title fullHtml fullText locM salM postedM applyM ld).company_url) ∧
      ((assembleBwd idv url title fullHtml fullText locM salM postedM applyM ld).image_url.isSome
        ↔ (assembleBwd idv url title fullHtml fullText locM salM postedM applyM ld).company_url.isSome) ∧
      (∀ u, (assembleBwd idv url title fullHtml fullText locM salM postedM applyM ld).company_url
          = some u →
        (assembleBwd idv url title fullHtml fullText locM salM postedM applyM ld).image_url
          = some (faviconPre ++ pyQuote u ++ faviconPost))) ∧
    (∀ (idv url title fullHtml fullText : List Char)
        (locM postedM pubIso : Option (List Char)) (cats : List (List Char))
        (webM applyM : Option (List Char)),
      ((assemblePython idv url title fullHtml fullText locM postedM pubIso cats webM applyM).image_url
        = favicon_url
            (assemblePython idv url title fullHtml fullText locM postedM pubIso cats webM applyM).company_url) ∧
      ((assemblePython idv url title fullHtml fullText locM postedM pubIso cats webM applyM).image_url.isSome
        ↔ (assemblePython idv url title fullHtml fullText locM postedM pubIso cats webM applyM).company_url.isSome) ∧
      (∀ u, (assemblePython idv url title fullHtml fullText locM postedM pubIso cats webM applyM).company_url
          = some u →
        (assemblePython idv url title fullHtml fullText locM postedM pubIso cats webM applyM).image_url
          = some (faviconPre ++ pyQuote u ++ faviconPost))) := by
  constructor
  · intro idv url title fullHtml fullText locM salM postedM applyM ld
    have hprops := favicon_canonical_props (pyOr ld.url applyM)
    exact ⟨rfl, hprops.1, fun u hu => hprops.2 u hu⟩
  · intro idv url title fullHtml fullText locM postedM pubIso cats webM applyM
    have hprops := favicon_canonical_props
      (match webM with | some w => some w | none => applyM)
    exact ⟨rfl, hprops.1, fun u hu => hprops.2 u hu⟩

/-- Witness for claim C8 at a concrete apply link: company_url resolves to
the site origin and image_url to the favicon template applied to it. -/
theorem image_url_is_favicon_witness :
    (assembleBwd [] [] [] [] [] none none none
        (some "https://example.com/x".data) { : LdBlock }).image_url
      = some (faviconPre ++ pyQuote "https://example.com".data ++ faviconPost) :=
  (image_url_is_favicon_of_company_url.1 [] [] [] [] [] none none none
      (some "https://example.com/x".data) { : LdBlock }).2.2
    "https://example.com".data (by decide)

/-- Claim C9: the syndication-feed date renderer applies the native grammar
first, then the generic grammar, and falls back to the current time when
both fail or the stored value is absent or empty; the rendered datetime
always carries a time-zone offset, a naive parse being forced to UTC; and
the embedded function is total. -/
theorem as_rfc2822_fallback_chain (p1 p2 : List Char → Option PyDatetime)
    (fmt : PyDatetime → List Char) (now : PyDatetime) (value : Option (List Char))
    (hnow : now.tz = some 0) :
    ∃ d, as_rfc2822 p1 p2 fmt now value = fmt d ∧ d.tz.isSome = true ∧
      (value = none → d = now) ∧
      (∀ v, value = some v → v.isEmpty = false →
        ((∀ x, p1 v = some x → d = forceUTC x) ∧
         (p1 v = none → ∀ x, p2 v = some x → d = forceUTC x) ∧
         (p1 v = none → p2 v = none → d = now))) := by
  have hnowSome : now.tz.isSome = true := by
    rw [hnow]
    rfl
  have hforceNow : forceUTC now = now := by
    unfold forceUTC
    rw [if_pos hnowSome]
  cases value with
  | none =>
    refine ⟨now, rfl, hnowSome, fun _ => rfl, fun v hv => ?_⟩
    cases hv
  | some v =>
    have e : as_rfc2822 p1 p2 fmt now (some v) =
        (if v.isEmpty then fmt now else
          fmt (forceUTC (match p1 v with
            | some d => d
            | none => match p2 v with
              | some d => d
              | none => now))) := rfl
    by_cases hv : v.isEmpty
    · refine ⟨now, by rw [e, if_pos hv], hnowSome, fun h => absurd h (Option.some_ne_none _), fun v' hv' hne => ?_⟩
      injection hv' with hv'
      subst hv'
      rw [hv] at hne
      cases hne
    · cases hp1 : p1 v with
      | some x =>
        refine ⟨forceUTC x, by rw [e, if_neg hv, hp1], forceUTC_isSome x,
          fun h => absurd h (Option.some_ne_none _), fun v' hv' _ => ?_⟩
        injection hv' with hv'
        subst hv'
        refine ⟨fun x' hx' => ?_, fun hn => ?_, fun hn _ => ?_⟩
        · rw [hp1] at hx'
          injection hx' with hx'
          rw [hx']
        · rw [hp1] at hn
          cases hn
        · rw [hp1] at hn
          cases hn
      | none =>
        cases hp2 : p2 v with
        | some x =>
          refine ⟨forceUTC x, by rw [e, if_neg hv, hp1, hp2], forceUTC_isSome x,
            fun h => absurd h (Option.some_ne_none _), fun v' hv' _ => ?_⟩
          injection hv' with hv'
          subst hv'
          refine ⟨fun x' hx' => ?_, fun _ x' hx' => ?_, fun _ hn => ?_⟩
          · rw [hp1] at hx'
            cases hx'
          · rw [hp2] at hx'
            injection hx' with hx'
            rw [hx']
          · rw [hp2] at hn
            cases hn
        | none =>
          refine ⟨now, by rw [e, if_neg hv, hp1, hp2, hforceNow], hnowSome,
            fun _ => rfl, fun v' hv' _ => ?_⟩
          injection hv' with hv'
          subst hv'
          refine ⟨fun x' hx' => ?_, fun _ x' hx' => ?_, fun _ _ => rfl⟩
          · rw [hp1] at hx'
            cases hx'
          · rw [hp2] at hx'
            cases hx'

/-- Witness for claim C9: with both grammars failing on the stored value
"x" and an aware clock, the renderer produces the clock's formatted value
with its offset kept. -/
theorem as_rfc2822_fallback_chain_witness :
    ∃ d, as_rfc2822 (fun _ => none) (fun _ => none)
        (fun d => if d.tz.isSome then ['z'] else [])
        { stamp := 0, tz := some 0 } (some ['x']) = (if d.tz.isSome then ['z'] else []) ∧
      d.tz.isSome = true ∧
      ((some ['x'] : Option (List Char)) = none → d = { stamp := 0, tz := some 0 }) ∧
      (∀ v, (some ['x'] : Option (List Char)) = some v → v.isEmpty = false →
        ((∀ x, (fun _ => (none : Option PyDatetime)) v = some x → d = forceUTC x) ∧
         ((fun _ => (none : Option PyDatetime)) v = none →
           ∀ x, (fun _ => (none : Option PyDatetime)) v = some x → d = forceUTC x) ∧
         ((fun _ => (none : Option PyDatetime)) v = none →
           (fun _ => (none : Option PyDatetime)) v = none →
             d = { stamp := 0, tz := some 0 }))) :=
  as_rfc2822_fallback_chain (fun _ => none) (fun _ => none)
    (fun d => if d.tz.isSome then ['z'] else []) { stamp := 0, tz := some 0 }
    (some ['x']) rfl

example : canonical_site_url (some "https://apply.example.com/job?x=1".data)
    = some "https://apply.example.com".data := by decide

example : canonical_site_url (some "mailto:jobs@example.com".data) = none := by decide

example : canonical_site_url (some "example.com/jobs".data) = none := by decide

example : favicon_url (some "https://example.com".data)
    = some ("https://t0.gstatic.com/faviconV2?client=SOCIAL&type=FAVICON" ++
        "&fallback_opts=TYPE,SIZE,URL&url=https://example.com&size=128").data := by decide

example : parse_employment "We offer a Full-Time position".data = some "Full-Time".data := by
  decide

example : parse_employment "internships available".data = none := by decide

example : skills_from_text "Django and AWS, plus REST APIs".data
    = ["Django".data, "AWS".data, "REST".data, "API".data] := by decide

example : parse_salary "Salary: $120,000 - $150,000".data
    = some "$120,000 - $150,000".data := by decide

example : parse_salary "Raised 3.1M and growing month-on-month".data = none := by decide

example : parse_salary "hello, world".data = none := by decide

example : searchKw "salary 50000".data = some "50000".data := by decide

example : parse_salary "compensation: 90k – 120k".data = some "90k – 120k".data := by decide

example : key_for (some "Senior Django Developer, Acme".data) (some "Acme".data)
    = key_for (some "Senior Django Developer @ Acme".data) (some "Acme".data) := by decide

example : key_for (some "a,b@c".data) none = "a|".data := by decide

example : key_forSpec (some "a,b@c".data) none = "a b|".data := by decide

example : key_for none none = "|".data := by decide

end DjangoJobs
